import Mathlib

/-!
Verification development for the publications-analyzer repository.

The Python sources `scripts/pdf_analyzer.py` and `scripts/pdf_processor.py`
are shallowly embedded below.  Pure helper functions become Lean functions;
the per-page loop of `extract_pdf` becomes structural recursion over a list
of page records; the chunk post-processing pipeline of `pdf_processor.py`
becomes a composition of pure passes over a list of chunk records.

External collaborators are abstracted exactly where the Python code calls
out to them:
* Python's Unicode-aware `str.isspace` / `str.isalpha` / `str.isdigit` are
  abstracted as a `CharClass` record of character predicates (instantiated
  with their ASCII restrictions for concrete witnesses);
* the OCR engine call (`pytesseract.image_to_string`) becomes an
  `Except String String` field carried by each page record (error message or
  recognized text);
* the `rapidfuzz.fuzz.partial_ratio` scorer becomes an optional function
  parameter (`none` models an absent rapidfuzz installation).

Floating-point literals of the source (`0.15`, `0.4`, `0.005`, `0.85`) are
modelled as the exact rationals they denote, and all ratio comparisons are
carried out in `ℚ`.
-/

/-- Abstraction of Python's Unicode string-classification predicates
`str.isspace`, `str.isalpha`, `str.isdigit`. -/
structure CharClass where
  isspace : Char → Bool
  isalpha : Char → Bool
  isdigit : Char → Bool

/-- The ASCII restriction of Python's character predicates, used to evaluate
the embedding on concrete ASCII inputs. -/
def asciiCC : CharClass where
  isspace c := c = ' ' || c = '\t' || c = '\n' || c = '\r' || c = '\x0b' || c = '\x0c'
  isalpha c := c.isAlpha
  isdigit c := c.isDigit

/-- `MIN_NONWS_CHARS` from `pdf_analyzer.py`. -/
def MIN_NONWS_CHARS : Nat := 50

/-- `MIN_ALPHA_RATIO` from `pdf_analyzer.py`. -/
def MIN_ALPHA_RATIO : ℚ := 4/10

/-- `MIN_IMG_WIDTH` from `pdf_analyzer.py`. -/
def MIN_IMG_WIDTH : Nat := 50

/-- `MIN_IMG_HEIGHT` from `pdf_analyzer.py`. -/
def MIN_IMG_HEIGHT : Nat := 50

/-- `nonws_len` from `pdf_analyzer.py`: count of non-whitespace characters. -/
def nonws_len (cc : CharClass) (text : String) : Nat :=
  (text.data.filter (fun c => !cc.isspace c)).length

/-- The `digits_in_word` count from `looks_garbled`: the number of positions
`i ∈ [1, len-2]` of the raw text holding a digit whose two neighbours are both
alphabetic (`sum(1 for i in range(1, len(text)-1) if ...)`). -/
def digitsInWord (cc : CharClass) : List Char → Nat
  | a :: b :: c :: rest =>
      (if cc.isdigit b && cc.isalpha a && cc.isalpha c then 1 else 0)
        + digitsInWord cc (b :: c :: rest)
  | _ => 0

/-- `looks_garbled` from `pdf_analyzer.py`. -/
def looks_garbled (cc : CharClass) (text : String) : Bool :=
  let non_ws := text.data.filter (fun c => !cc.isspace c)
  if non_ws.isEmpty then false
  else
    let non_ascii_alpha : Nat :=
      non_ws.countP (fun c => cc.isalpha c && decide (127 < c.toNat))
    if (15 : ℚ)/100 ≤ (non_ascii_alpha : ℚ) / (non_ws.length : ℚ) then false
    else
      let alpha_count : Nat := non_ws.countP (fun c => cc.isalpha c)
      if ((alpha_count : ℚ) / (non_ws.length : ℚ)) < MIN_ALPHA_RATIO then true
      else decide ((5 : ℚ)/1000 < (digitsInWord cc text.data : ℚ) / (non_ws.length : ℚ))

/-- One page of a PDF, as consumed by the text part of `extract_pdf`: the
native text returned by `page.get_text()` and the outcome of the OCR engine
call for that page (only inspected when OCR is triggered). -/
structure PageData where
  rawText : String
  ocrResult : Except String String

/-- The OCR-trigger condition of `extract_pdf`:
`nonws_len(raw_text) < MIN_NONWS_CHARS or looks_garbled(raw_text)`. -/
def pageTriggersOCR (cc : CharClass) (raw : String) : Bool :=
  decide (nonws_len cc raw < MIN_NONWS_CHARS) || looks_garbled cc raw

/-- The text-extraction body of the page loop of `extract_pdf`: the text block
appended to `text_parts` for one page, together with this page's contribution
to the `ocr_used` flag (which the source sets to `True` only after a
successful OCR call). -/
def processPage (cc : CharClass) (label : Nat) (p : PageData) : String × Bool :=
  if pageTriggersOCR cc p.rawText then
    match p.ocrResult with
    | .ok t => ("[Page " ++ toString label ++ " — OCR]\n" ++ t, true)
    | .error e => ("[Page " ++ toString label ++ " — OCR failed: " ++ e ++ "]", false)
  else
    ("[Page " ++ toString label ++ "]\n" ++ p.rawText, false)

/-- The page loop of `extract_pdf` starting at page label `label`:
accumulates `text_parts` and the document-level `ocr_used` flag. -/
def extractPagesAux (cc : CharClass) (label : Nat) : List PageData → List String × Bool
  | [] => ([], false)
  | p :: rest =>
      let pr := processPage cc label p
      let r := extractPagesAux cc (label + 1) rest
      (pr.1 :: r.1, pr.2 || r.2)

/-- The page loop of `extract_pdf` over a whole document (labels are 1-based). -/
def extractPages (cc : CharClass) (pages : List PageData) : List String × Bool :=
  extractPagesAux cc 1 pages

/-- An image placement rectangle (only its extent is consulted by the source). -/
structure Rect where
  width : ℚ
  height : ℚ
deriving DecidableEq

/-- Outcome of the per-image filter in the image-extraction part of the
`extract_pdf` page loop. -/
inductive ImgAction where
  | skipSmall
  | skipFullPage
  | save
deriving DecidableEq

/-- The per-image filter of `extract_pdf` for one image that was successfully
decoded: the minimum-size check followed by the full-page-scan check against
`rects[0]` (`page.get_image_rects(xref)`), the page rectangle, and the page's
final non-whitespace text length `page_text_nws`. -/
def imageAction (pixWidth pixHeight : Nat) (rects : List Rect) (pageRect : Rect)
    (pageTextNws : Nat) : ImgAction :=
  if pixWidth < MIN_IMG_WIDTH || pixHeight < MIN_IMG_HEIGHT then .skipSmall
  else
    match rects with
    | r :: _ =>
        if pageRect.width * (85/100 : ℚ) ≤ r.width
            && pageRect.height * (85/100 : ℚ) ≤ r.height
            && decide (300 < pageTextNws) then
          .skipFullPage
        else .save
    | [] => .save

/-- Python's `\d` (restricted to ASCII): a decimal digit. -/
def isD (c : Char) : Bool := c.isDigit

/-- The regex class `[a-z]`: an ASCII lowercase letter. -/
def isL (c : Char) : Bool := 'a' ≤ c && c ≤ 'z'

/-- A year-like token of `parse_filename`: 4 digits optionally followed by a
single lowercase letter (the regex group `\d{4}[a-z]?`). -/
def YearTok : List Char → Bool
  | [d1, d2, d3, d4] => isD d1 && isD d2 && isD d3 && isD d4
  | [d1, d2, d3, d4, c] => isD d1 && isD d2 && isD d3 && isD d4 && isL c
  | _ => false

/-- The trailing-delimiter lookahead `(?=_|$)`: the remainder after the token
is empty or starts with an underscore. -/
def PostOK : List Char → Bool
  | [] => true
  | c :: _ => c = '_'

/-- Attempt to match `\d{4}[a-z]?(?=_|$)` at the head of `l` (with the
backtracking semantics of the greedy `[a-z]?`); on success return the captured
token and the unconsumed remainder (the lookahead consumes nothing). -/
def matchYearAt : List Char → Option (List Char × List Char)
  | d1 :: d2 :: d3 :: d4 :: rest =>
      if isD d1 && isD d2 && isD d3 && isD d4 then
        match rest with
        | [] => some ([d1, d2, d3, d4], [])
        | c :: rest2 =>
            if c = '_' then some ([d1, d2, d3, d4], c :: rest2)
            else if isL c then
              match rest2 with
              | [] => some ([d1, d2, d3, d4, c], [])
              | c2 :: _ => if c2 = '_' then some ([d1, d2, d3, d4, c], rest2) else none
            else none
      else none
  | _ => none

/-- The scanning phase of `re.search(r'(?:^|_)(\d{4}[a-z]?)(?=_|$)', stem)` for
match positions past the start of the string: walk the string left to right
and, at each underscore, try to match the year token right after it.  `acc`
holds the characters already passed, in reverse.  On success return
(characters before the matched underscore, token, remainder after the token). -/
def scanUnderscore (acc : List Char) : List Char → Option (List Char × List Char × List Char)
  | [] => none
  | c :: rest =>
      if c = '_' then
        match matchYearAt rest with
        | some (tok, post) => some (acc.reverse, tok, post)
        | none => scanUnderscore (c :: acc) rest
      else scanUnderscore (c :: acc) rest

/-- `re.search(r'(?:^|_)(\d{4}[a-z]?)(?=_|$)', stem)`: leftmost match.  At
position 0 the `^` alternative is tried (token at the very start); after that
every underscore position is tried in order.  On success return
(`stem[:m.start()]`, the captured token, `stem[m.end():]`). -/
def searchYear (stem : List Char) : Option (List Char × List Char × List Char) :=
  match matchYearAt stem with
  | some (tok, post) => some ([], tok, post)
  | none => scanUnderscore [] stem

/-- Python's `str.strip()` restricted to the source's ASCII inputs: drop
whitespace from both ends. -/
def pyStripL (l : List Char) : List Char :=
  ((l.dropWhile (fun c => asciiCC.isspace c)).reverse.dropWhile
    (fun c => asciiCC.isspace c)).reverse

/-- `'_'` to `' '` replacement (`str.replace("_", " ")`, charwise). -/
def usToSpace (c : Char) : Char := if c = '_' then ' ' else c

/-- Split a character list at the first underscore, if any
(one step of `str.split("_", ...)`). -/
def breakUnderscore : List Char → List Char × Option (List Char)
  | [] => ([], none)
  | c :: rest =>
      if c = '_' then ([], some rest)
      else
        let (a, r) := breakUnderscore rest
        (c :: a, r)

/-- Python's `stem.split("_", 2)`: split on the first two underscores. -/
def pySplit2 (l : List Char) : List (List Char) :=
  match breakUnderscore l with
  | (a, none) => [a]
  | (a, some r1) =>
      match breakUnderscore r1 with
      | (b, none) => [a, b]
      | (b, some r2) => [a, b, r2]

/-- Result record of `parse_filename`. -/
structure ParsedName where
  author : String
  year : String
  title : String
deriving DecidableEq

/-- `parse_filename` from `pdf_analyzer.py`. -/
def parse_filename (stem : String) : ParsedName :=
  match searchYear stem.data with
  | some (pre, tok, post) =>
      { author := ⟨pre⟩
        year := ⟨tok⟩
        title := ⟨pyStripL ((post.dropWhile (fun c => c = '_')).map usToSpace)⟩ }
  | none =>
      let parts := pySplit2 stem.data
      { author := ⟨parts.getD 0 []⟩
        year := ⟨parts.getD 1 []⟩
        title := ⟨(parts.getD 2 []).map usToSpace⟩ }

/-- A figure entry of a chunk (`{"caption": ..., "picture_ref": ..., "image_file": ...}`;
an absent or empty `image_file` key is modelled as `""`, matching the source's
truthiness tests `fig.get("image_file")` / `fig.get("picture_ref", "")`). -/
structure Fig where
  caption : String
  picture_ref : String
  image_file : String
deriving DecidableEq

/-- A table entry of a chunk (`{"caption": ..., "csv_file": ...}`). -/
structure Tbl where
  caption : String
  csv_file : String
deriving DecidableEq

/-- A RAG chunk as produced by `build_chunks` and mutated by the
post-processing passes (the constant `source_file` / `species` fields are
never consulted by the passes and are omitted). -/
structure Chunk where
  text : String
  headings : List String
  item_types : List String
  page_numbers : List Nat
  figures : List Fig
  tables : List Tbl
deriving DecidableEq

/-- A docling `PictureItem` as consulted by the caption lookups
(`pic.self_ref` and `pic.caption_text(doc) or ""`). -/
structure Pic where
  self_ref : String
  caption : String
deriving DecidableEq

/-- A docling `TableItem` as consulted by `extract_tables`
(`table.self_ref` and `table.caption_text(doc) or ""`). -/
structure TableSrc where
  self_ref : String
  caption : String
deriving DecidableEq

/-- One parsed `images/<slug>_meta.json` sidecar, in the sorted order the
source reads them (`sorted(images_dir.glob("*_meta.json"))`); `slugName` is
the file name with the `_meta.json` suffix removed. -/
structure ImageMeta where
  slugName : String
  caption : String
  page_number : Option Nat
  picture_ref : String
deriving DecidableEq

/-- A structural item of a chunk (`chunk.meta.doc_items`), classified the way
`build_chunks` inspects it: `PictureItem`, `TableItem`, or any other item
carrying its type name, its `label`, and its `text`.  Each constructor carries
the item's provenance page numbers. -/
inductive DocItem where
  | pic (self_ref caption : String) (pages : List Nat)
  | table (self_ref caption : String) (pages : List Nat)
  | other (typeName label text : String) (pages : List Nat)
deriving DecidableEq

/-- One chunk as emitted by docling's `HybridChunker`, before `build_chunks`
annotates it: its text, headings and structural items. -/
structure ChunkSrc where
  text : String
  headings : List String
  doc_items : List DocItem
deriving DecidableEq

/-- Does `small` occur at the head of `l`? -/
def startsWithL : List Char → List Char → Bool
  | [], _ => true
  | _ :: _, [] => false
  | a :: as, b :: bs => a = b && startsWithL as bs

/-- Substring test over character lists (Python's `needle in haystack`). -/
def containsSub (n : List Char) : List Char → Bool
  | [] => startsWithL n []
  | c :: rest => startsWithL n (c :: rest) || containsSub n rest

/-- ASCII lowercasing of a character list (Python's `str.lower()` on the
source's ASCII label strings). -/
def toLowerL (l : List Char) : List Char := l.map Char.toLower

/-- Insertion-ordered dictionary update: setting an existing key replaces its
value in place, a new key is appended (Python `dict` semantics). -/
def dictInsert (m : List (String × String)) (k v : String) : List (String × String) :=
  match m with
  | [] => [(k, v)]
  | (k', v') :: rest => if k' = k then (k', v) :: rest else (k', v') :: dictInsert rest k v

/-- Dictionary lookup (`d.get(k)`). -/
def dictGet? (m : List (String × String)) (k : String) : Option String :=
  match m with
  | [] => none
  | (k', v') :: rest => if k' = k then some v' else dictGet? rest k

/-- Dictionary lookup with default (`d.get(k, dflt)`). -/
def dictGetD (m : List (String × String)) (k dflt : String) : String :=
  match dictGet? m k with
  | some v => v
  | none => dflt

/-- `sorted(set(xs))` over page numbers. -/
def sortedDedup (l : List Nat) : List Nat :=
  (l.eraseDups).mergeSort (fun a b => a ≤ b)

/-- `get_page_numbers` from `pdf_processor.py`: the sorted set of provenance
page numbers of one structural item. -/
def get_page_numbers (it : DocItem) : List Nat :=
  match it with
  | .pic _ _ pages => sortedDedup pages
  | .table _ _ pages => sortedDedup pages
  | .other _ _ _ pages => sortedDedup pages

/-- Python's `re` word class `\w` restricted to ASCII: alphanumeric or `_`. -/
def isWordChar (c : Char) : Bool := c.isAlphanum || c = '_'

/-- Python's `re` whitespace class `\s` restricted to ASCII. -/
def isSpaceRe (c : Char) : Bool :=
  c = ' ' || c = '\t' || c = '\n' || c = '\r' || c = '\x0b' || c = '\x0c'

/-- `re.sub(r"\s+", "_", ...)`: collapse every whitespace run to a single
underscore (`prevSpace` records whether the previous character was part of a
run already collapsed). -/
def collapseRunsAux (prevSpace : Bool) : List Char → List Char
  | [] => []
  | c :: rest =>
      if isSpaceRe c then
        if prevSpace then collapseRunsAux true rest
        else '_' :: collapseRunsAux true rest
      else c :: collapseRunsAux false rest

/-- `make_slug` from `pdf_processor.py` (with `max_len` passed explicitly). -/
def make_slug (text : String) (maxLen : Nat) : String :=
  let s1 := text.data.filter (fun c => isWordChar c || isSpaceRe c || c = '-')
  let s2 := collapseRunsAux false
    (((s1.dropWhile isSpaceRe).reverse.dropWhile isSpaceRe).reverse)
  let s3 := ((s2.take maxLen).reverse.dropWhile (fun c => c = '_' || c = '-')).reverse
  if s3.isEmpty then ⟨text.data.take maxLen⟩ else ⟨s3⟩

/-- The `table_slugs` dictionary built by `extract_tables`: for the `i`-th
table (1-based), `table.self_ref ↦ "tables/<slug>.csv"` where the slug is
`make_slug(caption)` for a non-empty caption and `"table_<i>"` otherwise. -/
def extractTableSlugsAux (i : Nat) : List TableSrc → List (String × String) → List (String × String)
  | [], m => m
  | t :: rest, m =>
      let slug := if t.caption = "" then "table_" ++ toString i else make_slug t.caption 50
      extractTableSlugsAux (i + 1) rest (dictInsert m t.self_ref ("tables/" ++ slug ++ ".csv"))

/-- `table_slugs` as returned by `extract_tables` (enumeration starts at 1). -/
def extractTableSlugs (tables : List TableSrc) : List (String × String) :=
  extractTableSlugsAux 1 tables []

/-- The `caption_to_pic_ref` dictionary: caption text of every captioned
picture mapped to that picture's `self_ref` (a duplicated caption keeps its
first position but takes the last picture's ref, as a Python dict
comprehension does). -/
def captionToPicRef (pictures : List Pic) : List (String × String) :=
  pictures.foldl
    (fun m p => if p.caption = "" then m else dictInsert m p.caption p.self_ref) []

/-- The reference-collecting loop of `build_chunks` over one chunk's
`doc_items`: figures keyed by `self_ref` (or resolved caption ref) through
`seen_pic_refs`, tables keyed by `self_ref` through `seen_table_refs`;
a caption-labelled text item resolves through `caption_to_pic_ref` and is
added only when the resolved ref is truthy and unseen. -/
def buildRefs (capmap tslugs : List (String × String)) (seenP seenT : List String) :
    List DocItem → List Fig × List Tbl
  | [] => ([], [])
  | .pic ref cap _ :: rest =>
      if ref ∈ seenP then buildRefs capmap tslugs seenP seenT rest
      else
        let r := buildRefs capmap tslugs (ref :: seenP) seenT rest
        ({ caption := cap, picture_ref := ref, image_file := "" } :: r.1, r.2)
  | .table ref cap _ :: rest =>
      if ref ∈ seenT then buildRefs capmap tslugs seenP seenT rest
      else
        let r := buildRefs capmap tslugs seenP (ref :: seenT) rest
        (r.1, { caption := cap, csv_file := dictGetD tslugs ref "" } :: r.2)
  | .other _ lbl txt _ :: rest =>
      if containsSub "caption".data (toLowerL lbl.data) then
        match dictGet? capmap txt with
        | some pref =>
            if pref ≠ "" ∧ pref ∉ seenP then
              let r := buildRefs capmap tslugs (pref :: seenP) seenT rest
              ({ caption := txt, picture_ref := pref, image_file := "" } :: r.1, r.2)
            else buildRefs capmap tslugs seenP seenT rest
        | none => buildRefs capmap tslugs seenP seenT rest
      else buildRefs capmap tslugs seenP seenT rest

/-- The item-type tag recorded by `build_chunks` (`type(it).__name__`). -/
def itemTypeName : DocItem → String
  | .pic _ _ _ => "PictureItem"
  | .table _ _ _ => "TableItem"
  | .other tn _ _ _ => tn

/-- The per-chunk body of `build_chunks`: annotate one `HybridChunker` chunk
with page provenance and initial figure/table references. -/
def buildChunk (capmap tslugs : List (String × String)) (cs : ChunkSrc) : Chunk :=
  { text := cs.text
    headings := cs.headings
    item_types := cs.doc_items.map itemTypeName
    page_numbers := sortedDedup (cs.doc_items.flatMap get_page_numbers)
    figures := (buildRefs capmap tslugs [] [] cs.doc_items).1
    tables := (buildRefs capmap tslugs [] [] cs.doc_items).2 }

/-- `build_chunks` from `pdf_processor.py`: the chunk list handed to
post-processing (pictures provide the caption lookup, `table_slugs` the table
file paths). -/
def build_chunks (pictures : List Pic) (tslugs : List (String × String))
    (srcs : List ChunkSrc) : List Chunk :=
  srcs.map (buildChunk (captionToPicRef pictures) tslugs)

/-- The caption loop of `fix_figure_refs` for one chunk: walk the caption
lookup in insertion order, skip refs already referenced, and inject a fresh
figure entry whenever the fuzzy score reaches the threshold.  Returns the
injected entries (in order), the final `existing_refs`, and the injected
count. -/
def fixLoop (pr : String → String → ℚ) (threshold : ℚ) (text : String)
    (existing : List String) : List (String × String) → List Fig × List String × Nat
  | [] => ([], existing, 0)
  | (cap, ref) :: rest =>
      if ref ∈ existing then fixLoop pr threshold text existing rest
      else if threshold ≤ pr cap text then
        let r := fixLoop pr threshold text (ref :: existing) rest
        ({ caption := cap, picture_ref := ref, image_file := "" } :: r.1, r.2.1, r.2.2 + 1)
      else fixLoop pr threshold text existing rest

/-- The per-chunk body of `fix_figure_refs`: chunks with empty text are left
alone; otherwise `existing_refs` starts as the chunk's truthy picture refs and
matched captions are appended to the chunk's figures. -/
def fixChunk (pr : String → String → ℚ) (threshold : ℚ)
    (capmap : List (String × String)) (c : Chunk) : Chunk × Nat :=
  if c.text = "" then (c, 0)
  else
    let existing := (c.figures.filter (fun f => f.picture_ref ≠ "")).map (fun f => f.picture_ref)
    let r := fixLoop pr threshold c.text existing capmap
    ({ c with figures := c.figures ++ r.1 }, r.2.2)

/-- The chunk loop of `fix_figure_refs`. -/
def fixChunks (pr : String → String → ℚ) (threshold : ℚ)
    (capmap : List (String × String)) : List Chunk → List Chunk × Nat
  | [] => ([], 0)
  | c :: rest =>
      let hd := fixChunk pr threshold capmap c
      let tl := fixChunks pr threshold capmap rest
      (hd.1 :: tl.1, hd.2 + tl.2)

/-- `fix_figure_refs` from `pdf_processor.py`.  `fuzz` abstracts the optional
`rapidfuzz.fuzz.partial_ratio` scorer; `none` models an absent rapidfuzz
installation, where the pass is skipped (`return 0`). -/
def fix_figure_refs (fuzz : Option (String → String → ℚ)) (threshold : ℚ)
    (pictures : List Pic) (chunks : List Chunk) : List Chunk × Nat :=
  match fuzz with
  | none => (chunks, 0)
  | some pr => fixChunks pr threshold (captionToPicRef pictures) chunks

/-- The `pic_ref_to_image` dictionary of `resolve_image_files`: every sidecar
with a truthy `picture_ref` maps it to `images/<slug>.png` (later sidecars
overwrite earlier ones, as in the source's dict assignment). -/
def picRefToImage (metas : List ImageMeta) : List (String × String) :=
  metas.foldl
    (fun m meta =>
      if meta.picture_ref = "" then m
      else dictInsert m meta.picture_ref ("images/" ++ meta.slugName ++ ".png")) []

/-- The per-figure body of `resolve_image_files`: attach `image_file` when it
is missing and the ref resolves. -/
def resolveFig (m : List (String × String)) (f : Fig) : Fig × Nat :=
  if f.image_file ≠ "" then (f, 0)
  else
    match dictGet? m f.picture_ref with
    | some p => ({ f with image_file := p }, 1)
    | none => (f, 0)

/-- The figure loop of `resolve_image_files` over one chunk. -/
def resolveFigs (m : List (String × String)) : List Fig → List Fig × Nat
  | [] => ([], 0)
  | f :: fs =>
      let hd := resolveFig m f
      let tl := resolveFigs m fs
      (hd.1 :: tl.1, hd.2 + tl.2)

/-- `resolve_image_files` from `pdf_processor.py`. -/
def resolve_image_files (metas : List ImageMeta) : List Chunk → List Chunk × Nat
  | [] => ([], 0)
  | c :: rest =>
      let hd := resolveFigs (picRefToImage metas) c.figures
      let tl := resolve_image_files metas rest
      ({ c with figures := hd.1 } :: tl.1, hd.2 + tl.2)

/-- The figure half of `dedup_per_chunk`: keep the first entry per
`picture_ref` key (the empty ref is a key like any other). -/
def dedupFigs (seen : List String) : List Fig → List Fig
  | [] => []
  | f :: fs =>
      if f.picture_ref ∈ seen then dedupFigs seen fs
      else f :: dedupFigs (f.picture_ref :: seen) fs

/-- The table half of `dedup_per_chunk`: keep the first entry per `csv_file`
key. -/
def dedupTbls (seen : List String) : List Tbl → List Tbl
  | [] => []
  | t :: ts =>
      if t.csv_file ∈ seen then dedupTbls seen ts
      else t :: dedupTbls (t.csv_file :: seen) ts

/-- `dedup_per_chunk` from `pdf_processor.py`. -/
def dedup_per_chunk (chunks : List Chunk) : List Chunk :=
  chunks.map (fun c => { c with figures := dedupFigs [] c.figures, tables := dedupTbls [] c.tables })

/-- The figure loop of `dedup_cross_chunk` over one chunk: a truthy ref
already in `seen` is dropped (and counted); a kept truthy ref is added to
`seen`; empty refs are always kept and never recorded. -/
def crossFigs (seen : List String) : List Fig → List Fig × List String × Nat
  | [] => ([], seen, 0)
  | f :: fs =>
      if f.picture_ref ≠ "" ∧ f.picture_ref ∈ seen then
        let r := crossFigs seen fs
        (r.1, r.2.1, r.2.2 + 1)
      else
        let seen1 := if f.picture_ref ≠ "" then f.picture_ref :: seen else seen
        let r := crossFigs seen1 fs
        (f :: r.1, r.2.1, r.2.2)

/-- The chunk loop of `dedup_cross_chunk`, threading the document-wide `seen`
set. -/
def crossChunks (seen : List String) : List Chunk → List Chunk × Nat
  | [] => ([], 0)
  | c :: rest =>
      let hd := crossFigs seen c.figures
      let tl := crossChunks hd.2.1 rest
      ({ c with figures := hd.1 } :: tl.1, hd.2.2 + tl.2)

/-- `dedup_cross_chunk` from `pdf_processor.py`. -/
def dedup_cross_chunk (chunks : List Chunk) : List Chunk × Nat :=
  crossChunks [] chunks

/-- `assigned_refs` as initialized by `inject_fallback_figures`: every truthy
`picture_ref` appearing in any chunk. -/
def assignedRefs (chunks : List Chunk) : List String :=
  chunks.flatMap (fun c => (c.figures.filter (fun f => f.picture_ref ≠ "")).map (fun f => f.picture_ref))

/-- `page_no in c.get("page_numbers", [])` (Python's `None in list` is
`False`). -/
def pageCovers (pg : Option Nat) (c : Chunk) : Bool :=
  match pg with
  | some p => p ∈ c.page_numbers
  | none => false

/-- The `next((i for i, c in enumerate(chunks) if ...), None)` target lookup
of `inject_fallback_figures`. -/
def findTargetIdx (pg : Option Nat) : List Chunk → Option Nat
  | [] => none
  | c :: rest => if pageCovers pg c then some 0 else (findTargetIdx pg rest).map (· + 1)

/-- In-place update of the `i`-th chunk. -/
def updateAt : List Chunk → Nat → (Chunk → Chunk) → List Chunk
  | [], _, _ => []
  | c :: rest, 0, f => f c :: rest
  | c :: rest, Nat.succ n, f => c :: updateAt rest n f

/-- The sidecar loop of `inject_fallback_figures`: skip truthy-captioned,
already-assigned, falsy-ref, or uncoverable sidecars; otherwise append a
caption-less figure entry (with its resolved file path) to the first chunk
covering the sidecar's page. -/
def injectAux (chunks : List Chunk) (assigned : List String) :
    List ImageMeta → List Chunk × List String × Nat
  | [] => (chunks, assigned, 0)
  | m :: rest =>
      if m.picture_ref = "" ∨ m.picture_ref ∈ assigned then injectAux chunks assigned rest
      else if pyStripL m.caption.data ≠ [] then injectAux chunks assigned rest
      else
        match findTargetIdx m.page_number chunks with
        | none => injectAux chunks assigned rest
        | some i =>
            let fig : Fig :=
              { caption := "", picture_ref := m.picture_ref
                image_file := "images/" ++ m.slugName ++ ".png" }
            let chunks' := updateAt chunks i (fun c => { c with figures := c.figures ++ [fig] })
            let r := injectAux chunks' (m.picture_ref :: assigned) rest
            (r.1, r.2.1, r.2.2 + 1)

/-- `inject_fallback_figures` from `pdf_processor.py`. -/
def inject_fallback_figures (metas : List ImageMeta) (chunks : List Chunk) : List Chunk × Nat :=
  let r := injectAux chunks (assignedRefs chunks) metas
  (r.1, r.2.2)

/-- The stats record returned by `postprocess_chunks`. -/
structure PPStats where
  fuzzy_injected : Nat
  fallback_injected : Nat
  image_files_resolved : Nat
  cross_chunk_removed : Nat
deriving DecidableEq

/-- `postprocess_chunks` from `pdf_processor.py`: the five ordered passes,
with the conditional second cross-chunk dedup when any fallback injection
occurred. -/
def postprocess_chunks (fuzz : Option (String → String → ℚ)) (threshold : ℚ)
    (pictures : List Pic) (metas : List ImageMeta) (chunks : List Chunk) :
    List Chunk × PPStats :=
  let r1 := fix_figure_refs fuzz threshold pictures chunks
  let r2 := resolve_image_files metas r1.1
  let c3 := dedup_per_chunk r2.1
  let r4 := dedup_cross_chunk c3
  let r5 := inject_fallback_figures metas r4.1
  let r6 := if r5.2 ≠ 0 then dedup_cross_chunk r5.1 else (r5.1, 0)
  (r6.1, { fuzzy_injected := r1.2, fallback_injected := r5.2
           image_files_resolved := r2.2, cross_chunk_removed := r4.2 + r6.2 })

/-- Total number of figure entries carrying ref `r` in a figure list. -/
def countFigs (r : String) (fs : List Fig) : Nat :=
  (fs.filter (fun f => f.picture_ref = r)).length

/-- Total number of figure entries carrying ref `r` across a chunk list. -/
def countRef (r : String) (chunks : List Chunk) : Nat :=
  (chunks.map (fun c => countFigs r c.figures)).sum


/-- A match of the scanning phase: the stem splits as
`a ++ '_' :: (tok ++ post)` with a delimited year token (the regex candidate
whose match starts at the underscore at position `a.length`). -/
def CandU (stem a tok post : List Char) : Prop :=
  stem = a ++ '_' :: (tok ++ post) ∧ YearTok tok = true ∧ PostOK post = true

/-- A regex match of `(?:^|_)(\d{4}[a-z]?)(?=_|$)` inside the stem: the stem
splits as `a ++ d ++ tok ++ post` where `tok` is a year token, `post` is empty
or starts with an underscore, and the left delimiter `d` is empty (start of
string, forcing `a = []`) or a single underscore.  The regex match starts at
position `a.length`. -/
def IsYearSplit (stem a d tok post : List Char) : Prop :=
  stem = a ++ d ++ tok ++ post ∧ YearTok tok = true ∧ PostOK post = true ∧
    ((a = [] ∧ d = []) ∨ d = ['_'])

/-- The invariant threading `inject_fallback_figures`: `assigned` holds
exactly the truthy refs present in the chunks. -/
def AssignedInv (chunks : List Chunk) (assigned : List String) : Prop :=
  ∀ r, r ≠ "" → (r ∈ assigned ↔ 1 ≤ countRef r chunks)

/-- The per-chunk invariant of C7: figure entries have pairwise-distinct
image reference identifiers and table entries pairwise-distinct file paths. -/
def ChunkInv (c : Chunk) : Prop :=
  (c.figures.map (fun f => f.picture_ref)).Nodup ∧
    (c.tables.map (fun t => t.csv_file)).Nodup

/-! ## Claim theorems -/

/-- **C3.** `looks_garbled` returns garbled (`true`) if and only if: the text
has at least one non-whitespace character, AND the fraction of non-whitespace
characters that are alphabetic with codepoint above the ASCII range is
`< 0.15`, AND either (a) the fraction of non-whitespace characters that are
alphabetic is `< 0.4`, or (b) the number of digit characters immediately
flanked by an alphabetic character on both sides divided by the
non-whitespace count is `> 0.005`.  In all other cases (including
empty/whitespace-only text) it returns reliable (`false`). -/
theorem claim_C3_looks_garbled_iff (cc : CharClass) (text : String) :
    looks_garbled cc text = true ↔
      (text.data.filter (fun c => !cc.isspace c) ≠ [] ∧
       ((text.data.filter (fun c => !cc.isspace c)).countP
            (fun c => cc.isalpha c && decide (127 < c.toNat)) : ℚ) /
          ((text.data.filter (fun c => !cc.isspace c)).length : ℚ) < 15/100 ∧
       (((text.data.filter (fun c => !cc.isspace c)).countP (fun c => cc.isalpha c) : ℚ) /
            ((text.data.filter (fun c => !cc.isspace c)).length : ℚ) < 4/10 ∨
        (5 : ℚ)/1000 <
          (digitsInWord cc text.data : ℚ) /
            ((text.data.filter (fun c => !cc.isspace c)).length : ℚ))) := by
  by_cases h1 : text.data.filter (fun c => !cc.isspace c) = []
  · simp [looks_garbled, h1]
  · have h1' : (text.data.filter (fun c => !cc.isspace c)).isEmpty = false := by
      simpa [List.isEmpty_iff] using h1
    by_cases h2 : (15 : ℚ)/100 ≤
        ((text.data.filter (fun c => !cc.isspace c)).countP
            (fun c => cc.isalpha c && decide (127 < c.toNat)) : ℚ) /
          ((text.data.filter (fun c => !cc.isspace c)).length : ℚ)
    · simp [looks_garbled, h1', h2, not_lt.mpr h2]
    · by_cases h3 : ((text.data.filter (fun c => !cc.isspace c)).countP
            (fun c => cc.isalpha c) : ℚ) /
          ((text.data.filter (fun c => !cc.isspace c)).length : ℚ) < 4/10
      · simp [looks_garbled, MIN_ALPHA_RATIO, h1', h2, h3, h1, not_le.mp h2]
      · simp [looks_garbled, MIN_ALPHA_RATIO, h1', h2, h3, h1, not_le.mp h2]

/-- **C5.** Recognition is triggered iff the native text's non-whitespace
count is below 50 or the classifier returns garbled; a page with exactly 30
non-whitespace characters always triggers recognition; and an untriggered
page's final text is the native extraction prefixed with its page label. -/
theorem claim_C5_ocr_trigger (cc : CharClass) :
    (∀ raw : String,
       pageTriggersOCR cc raw = true ↔
         (nonws_len cc raw < 50 ∨ looks_garbled cc raw = true)) ∧
    (∀ raw : String, nonws_len cc raw = 30 → pageTriggersOCR cc raw = true) ∧
    (∀ (label : Nat) (p : PageData), pageTriggersOCR cc p.rawText = false →
       (processPage cc label p).1 = "[Page " ++ toString label ++ "]\n" ++ p.rawText) := by
  refine ⟨?_, ?_, ?_⟩
  · intro raw
    simp [pageTriggersOCR, MIN_NONWS_CHARS]
  · intro raw h
    simp [pageTriggersOCR, MIN_NONWS_CHARS, h]
  · intro label p h
    simp [processPage, h]

/-- A concrete 60-letter page text is classified reliable (evaluated
symbolically because rational division does not reduce in the kernel). -/
theorem garbled_false_on_letters :
    looks_garbled asciiCC "abcdefghijklmnopqrstuvwxyzabcdefghijklmnopqrstuvwxyzabcdefgh" = false := by
  have hf : "abcdefghijklmnopqrstuvwxyzabcdefghijklmnopqrstuvwxyzabcdefgh".data.filter
      (fun c => !asciiCC.isspace c)
      = "abcdefghijklmnopqrstuvwxyzabcdefghijklmnopqrstuvwxyzabcdefgh".data := by decide
  have hnaa : ("abcdefghijklmnopqrstuvwxyzabcdefghijklmnopqrstuvwxyzabcdefgh".data).countP
      (fun c => asciiCC.isalpha c && decide (127 < c.toNat)) = 0 := by decide
  have halpha : ("abcdefghijklmnopqrstuvwxyzabcdefghijklmnopqrstuvwxyzabcdefgh".data).countP
      (fun c => asciiCC.isalpha c) = 60 := by decide
  have hlen : ("abcdefghijklmnopqrstuvwxyzabcdefghijklmnopqrstuvwxyzabcdefgh".data).length = 60 := by
    decide
  have hdig :
      digitsInWord asciiCC "abcdefghijklmnopqrstuvwxyzabcdefghijklmnopqrstuvwxyzabcdefgh".data = 0 := by
    decide
  have hne :
      ("abcdefghijklmnopqrstuvwxyzabcdefghijklmnopqrstuvwxyzabcdefgh".data).isEmpty = false := by
    decide
  simp only [looks_garbled, hf, hnaa, halpha, hlen, hdig, hne, MIN_ALPHA_RATIO]
  norm_num

/-- The concrete 60-letter page does not trigger recognition. -/
theorem trigger_false_on_letters :
    pageTriggersOCR asciiCC "abcdefghijklmnopqrstuvwxyzabcdefghijklmnopqrstuvwxyzabcdefgh" = false := by
  have h1 : nonws_len asciiCC "abcdefghijklmnopqrstuvwxyzabcdefghijklmnopqrstuvwxyzabcdefgh" = 60 := by
    decide
  rw [pageTriggersOCR, h1, garbled_false_on_letters]
  decide

/-- Witness for C5 at concrete inputs: a page of 30 non-whitespace characters
triggers recognition, and an untriggered 60-letter page keeps its native text
with the page label prefixed. -/
theorem claim_C5_witness :
    pageTriggersOCR asciiCC "aaaaaaaaaaaaaaaaaaaaaaaaaaaaaa" = true ∧
    (processPage asciiCC 3
        ⟨"abcdefghijklmnopqrstuvwxyzabcdefghijklmnopqrstuvwxyzabcdefgh", Except.ok "ocr"⟩).1 =
      "[Page 3]\nabcdefghijklmnopqrstuvwxyzabcdefghijklmnopqrstuvwxyzabcdefgh" :=
  ⟨(claim_C5_ocr_trigger asciiCC).2.1 "aaaaaaaaaaaaaaaaaaaaaaaaaaaaaa" (by decide),
   (claim_C5_ocr_trigger asciiCC).2.2 3
     ⟨"abcdefghijklmnopqrstuvwxyzabcdefghijklmnopqrstuvwxyzabcdefgh", Except.ok "ocr"⟩
     trigger_false_on_letters⟩

/-- **C4.** For an image that passes the minimum-size filter and has a
placement rectangle, the image is rejected exactly when the placement covers
at least 85% of the page's width and height AND the page's final
non-whitespace text length exceeds 300; the same full-page geometry is saved
when that length is at most 300. -/
theorem claim_C4_fullpage_filter (pixWidth pixHeight : Nat) (r : Rect) (rs : List Rect)
    (pageRect : Rect) (nws : Nat)
    (hw : MIN_IMG_WIDTH ≤ pixWidth) (hh : MIN_IMG_HEIGHT ≤ pixHeight) :
    (imageAction pixWidth pixHeight (r :: rs) pageRect nws = ImgAction.skipFullPage ↔
       (pageRect.width * (85/100 : ℚ) ≤ r.width ∧
        pageRect.height * (85/100 : ℚ) ≤ r.height ∧ 300 < nws)) ∧
    ((pageRect.width * (85/100 : ℚ) ≤ r.width ∧
      pageRect.height * (85/100 : ℚ) ≤ r.height ∧ nws ≤ 300) →
       imageAction pixWidth pixHeight (r :: rs) pageRect nws = ImgAction.save) := by
  have hw' : ¬ pixWidth < MIN_IMG_WIDTH := Nat.not_lt.mpr hw
  have hh' : ¬ pixHeight < MIN_IMG_HEIGHT := Nat.not_lt.mpr hh
  constructor
  · by_cases h1 : pageRect.width * (85/100 : ℚ) ≤ r.width
    · by_cases h2 : pageRect.height * (85/100 : ℚ) ≤ r.height
      · by_cases h3 : 300 < nws
        · simp [imageAction, hw', hh', h1, h2, h3]
        · simp [imageAction, hw', hh', h1, h2, h3]
      · simp [imageAction, hw', hh', h1, h2]
    · simp [imageAction, hw', hh', h1]
  · rintro ⟨h1, h2, h3⟩
    simp [imageAction, hw', hh', h1, h2, Nat.not_lt.mpr h3]

/-- Witness for C4 at a concrete input: a 100×100 image whose placement
covers the whole 100×100 page is rejected on a page with 500 non-whitespace
characters and saved on a page with 200. -/
theorem claim_C4_witness :
    imageAction 100 100 [⟨85, 85⟩] ⟨100, 100⟩ 500 = ImgAction.skipFullPage ∧
    imageAction 100 100 [⟨85, 85⟩] ⟨100, 100⟩ 200 = ImgAction.save :=
  ⟨(claim_C4_fullpage_filter 100 100 ⟨85, 85⟩ [] ⟨100, 100⟩ 500
      (by decide) (by decide)).1.mpr (by norm_num),
   (claim_C4_fullpage_filter 100 100 ⟨85, 85⟩ [] ⟨100, 100⟩ 200
      (by decide) (by decide)).2 (by norm_num)⟩

/-- The per-page `ocr_used` contribution: `processPage` reports `true` exactly
when the page triggered recognition and the recognition call succeeded. -/
theorem processPage_snd (cc : CharClass) (label : Nat) (p : PageData) :
    (processPage cc label p).2 = true ↔
      (pageTriggersOCR cc p.rawText = true ∧ ∃ t, p.ocrResult = Except.ok t) := by
  by_cases h : pageTriggersOCR cc p.rawText = true
  · cases hr : p.ocrResult with
    | ok t => simp [processPage, h, hr]
    | error e => simp [processPage, h, hr]
  · simp [processPage, h]

/-- The `ocr_used` flag of the page loop, for any starting label. -/
theorem extractPagesAux_snd (cc : CharClass) (label : Nat) (pages : List PageData) :
    (extractPagesAux cc label pages).2 = true ↔
      ∃ p ∈ pages, pageTriggersOCR cc p.rawText = true ∧ ∃ t, p.ocrResult = Except.ok t := by
  induction pages generalizing label with
  | nil => simp [extractPagesAux]
  | cons p rest ih =>
      simp only [extractPagesAux, Bool.or_eq_true, ih (label + 1), processPage_snd,
        List.mem_cons]
      constructor
      · rintro (h | ⟨q, hq, hq2⟩)
        · exact ⟨p, Or.inl rfl, h⟩
        · exact ⟨q, Or.inr hq, hq2⟩
      · rintro ⟨q, hq | hq, hq2⟩
        · exact Or.inl (hq ▸ hq2)
        · exact Or.inr ⟨q, hq, hq2⟩

/-- **C2 (amended).** The document-level OCR-used flag recorded by
`extract_pdf` is true if and only if some page triggered recognition AND the
recognition call succeeded on that page.  (The claim as stated — the flag is
true whenever any page triggered recognition, even if recognition failed on
every triggered page — is refuted by `claim_C2_counterexample`: the source
sets `ocr_used = True` only after a successful `image_to_string` call, so the
assignment is skipped when the call raises.) -/
theorem claim_C2_ocr_flag (cc : CharClass) (pages : List PageData) :
    (extractPages cc pages).2 = true ↔
      ∃ p ∈ pages, pageTriggersOCR cc p.rawText = true ∧ ∃ t, p.ocrResult = Except.ok t :=
  extractPagesAux_snd cc 1 pages

/-- **C2 counterexample.** A one-page document whose page triggers recognition
(empty native text) and whose recognition call fails ends with the OCR-used
flag `false`, contradicting the claim that the flag is true whenever any page
triggered recognition. -/
theorem claim_C2_counterexample :
    pageTriggersOCR asciiCC "" = true ∧
    (extractPages asciiCC [⟨"", Except.error "tesseract unavailable"⟩]).2 = false := by
  constructor
  · decide
  · decide

/-- The page loop produces one text block per page, in page order: the block
list has the same length as the page list, and the `i`-th block is the
`processPage` output of the `i`-th page with label `label + i`. -/
theorem extractPagesAux_blocks (cc : CharClass) (label : Nat) (pages : List PageData) :
    (extractPagesAux cc label pages).1.length = pages.length ∧
    ∀ i, i < pages.length →
      (extractPagesAux cc label pages).1.getD i "" =
        (processPage cc (label + i) (pages.getD i ⟨"", Except.error ""⟩)).1 := by
  induction pages generalizing label with
  | nil => simp [extractPagesAux]
  | cons p rest ih =>
      refine ⟨by simp [extractPagesAux, (ih (label + 1)).1], ?_⟩
      intro i hi
      cases i with
      | zero => simp [extractPagesAux]
      | succ j =>
          have hj : j < rest.length := Nat.lt_of_succ_lt_succ hi
          have := (ih (label + 1)).2 j hj
          simpa [extractPagesAux, Nat.add_assoc, Nat.add_comm 1 j] using this

/-- **C8.** Every page contributes exactly one text block, in ascending page
order (the `i`-th block comes from the `i`-th page, labelled `i + 1`); and a
page on which recognition is triggered and the recognition call raises an
error contributes exactly the failure marker embedding the failure reason, so
the page is not dropped and processing continues with the next page. -/
theorem claim_C8_failure_marker (cc : CharClass) (pages : List PageData) :
    (extractPages cc pages).1.length = pages.length ∧
    (∀ i, i < pages.length →
       (extractPages cc pages).1.getD i "" =
         (processPage cc (i + 1) (pages.getD i ⟨"", Except.error ""⟩)).1) ∧
    (∀ i e, i < pages.length →
       pageTriggersOCR cc (pages.getD i ⟨"", Except.error ""⟩).rawText = true →
       (pages.getD i ⟨"", Except.error ""⟩).ocrResult = Except.error e →
       (extractPages cc pages).1.getD i "" =
         "[Page " ++ toString (i + 1) ++ " — OCR failed: " ++ e ++ "]") := by
  have h := extractPagesAux_blocks cc 1 pages
  refine ⟨h.1, ?_, ?_⟩
  · intro i hi
    simpa [Nat.add_comm 1 i] using h.2 i hi
  · intro i e hi htrig herr
    have hb := h.2 i hi
    rw [Nat.add_comm 1 i] at hb
    refine hb.trans ?_
    simp only [List.getD, List.get?_eq_getElem?] at htrig herr
    simp [processPage, htrig, herr]

/-- Witness for C8 at a concrete input: a two-page document whose second page
triggers recognition and fails keeps both pages, with the failure marker as
the second block. -/
theorem claim_C8_witness :
    (extractPages asciiCC [⟨"", Except.ok "recovered"⟩, ⟨"", Except.error "engine crash"⟩]).1.length = 2 ∧
    (extractPages asciiCC [⟨"", Except.ok "recovered"⟩, ⟨"", Except.error "engine crash"⟩]).1.getD 1 "" =
      "[Page 2 — OCR failed: engine crash]" := by
  refine ⟨(claim_C8_failure_marker asciiCC _).1, ?_⟩
  have := (claim_C8_failure_marker asciiCC
      [⟨"", Except.ok "recovered"⟩, ⟨"", Except.error "engine crash"⟩]).2.2 1 "engine crash"
      (by decide) (by decide) rfl
  simpa using this

/-- Within one figure list, per-chunk dedup keeps the empty-keyed entries of
the `seen`-parameterized loop: none if `""` was already seen, otherwise
exactly the first empty-keyed entry. -/
theorem dedupFigs_empty_filter (seen : List String) (fs : List Fig) :
    (dedupFigs seen fs).filter (fun f => f.picture_ref = "") =
      if "" ∈ seen then [] else (fs.filter (fun f => f.picture_ref = "")).take 1 := by
  induction fs generalizing seen with
  | nil => by_cases h : ("" : String) ∈ seen <;> simp [dedupFigs, h]
  | cons f fs ih =>
      by_cases hk : f.picture_ref ∈ seen
      · by_cases hf : f.picture_ref = ""
        · have h0 : ("" : String) ∈ seen := hf ▸ hk
          simp [dedupFigs, hk, hf, ih, h0]
        · simp [dedupFigs, hk, hf, ih]
      · by_cases hf : f.picture_ref = ""
        · have h0 : ("" : String) ∉ seen := hf ▸ hk
          simp [dedupFigs, hk, hf, ih, h0]
        · have h1 : (("" : String) ∈ f.picture_ref :: seen) ↔ ("" : String) ∈ seen := by
            constructor
            · intro h
              rcases List.mem_cons.mp h with h | h
              · exact absurd h.symm hf
              · exact h
            · exact fun h => List.mem_cons.mpr (Or.inr h)
          by_cases h0 : ("" : String) ∈ seen <;>
            simp [dedupFigs, hk, hf, ih, h1, h0]

/-- Cross-chunk dedup never touches an empty-ref figure entry: the empty-ref
entries of each figure list are preserved exactly. -/
theorem crossFigs_empty_filter (seen : List String) (fs : List Fig) :
    (crossFigs seen fs).1.filter (fun f => f.picture_ref = "") =
      fs.filter (fun f => f.picture_ref = "") := by
  induction fs generalizing seen with
  | nil => simp [crossFigs]
  | cons f fs ih =>
      by_cases hf : f.picture_ref = ""
      · have hk : ¬(f.picture_ref ≠ "" ∧ f.picture_ref ∈ seen) := fun h => h.1 hf
        simp [crossFigs, hk, hf, ih]
      · by_cases hs : f.picture_ref ∈ seen
        · have hk : f.picture_ref ≠ "" ∧ f.picture_ref ∈ seen := ⟨hf, hs⟩
          simp [crossFigs, hk, hf, ih]
        · have hk : ¬(f.picture_ref ≠ "" ∧ f.picture_ref ∈ seen) := fun h => hs h.2
          simp [crossFigs, hk, hf, hs, ih]

/-- Chunk-list version of `crossFigs_empty_filter`. -/
theorem crossChunks_empty_filter (seen : List String) (chunks : List Chunk) :
    ((crossChunks seen chunks).1).map (fun c => c.figures.filter (fun f => f.picture_ref = "")) =
      chunks.map (fun c => c.figures.filter (fun f => f.picture_ref = "")) := by
  induction chunks generalizing seen with
  | nil => simp [crossChunks]
  | cons c rest ih => simp [crossChunks, crossFigs_empty_filter, ih]

/-- **C10.** Figure entries with a missing/empty `picture_ref` are
deduplicated under the single key `""`: within each chunk `dedup_per_chunk`
collapses them to the first such entry; `dedup_cross_chunk` never removes an
empty-ref entry and an empty-ref entry never blocks a later entry; and
empty-ref figures survive in multiple chunks (a concrete two-chunk document
with one empty-ref figure per chunk passes through cross-chunk dedup
unchanged). -/
theorem claim_C10_empty_ref_figures :
    (∀ chunks : List Chunk,
       (dedup_per_chunk chunks).map (fun c => c.figures.filter (fun f => f.picture_ref = "")) =
         chunks.map (fun c => (c.figures.filter (fun f => f.picture_ref = "")).take 1)) ∧
    (∀ chunks : List Chunk,
       ((dedup_cross_chunk chunks).1).map (fun c => c.figures.filter (fun f => f.picture_ref = "")) =
         chunks.map (fun c => c.figures.filter (fun f => f.picture_ref = ""))) ∧
    (dedup_cross_chunk
        [⟨"t1", [], [], [1], [⟨"capA", "", "images/a.png"⟩], []⟩,
         ⟨"t2", [], [], [2], [⟨"capB", "", "images/b.png"⟩], []⟩]).1 =
      [⟨"t1", [], [], [1], [⟨"capA", "", "images/a.png"⟩], []⟩,
       ⟨"t2", [], [], [2], [⟨"capB", "", "images/b.png"⟩], []⟩] := by
  refine ⟨?_, ?_, by decide⟩
  · intro chunks
    simp [dedup_per_chunk, dedupFigs_empty_filter]
  · intro chunks
    exact crossChunks_empty_filter [] chunks

/-- A lowercase letter is not an underscore. -/
theorem isL_ne_underscore {c : Char} (h : isL c = true) : c ≠ '_' := by
  intro he
  subst he
  exact absurd h (by decide)

/-- A year token starts with a digit. -/
theorem yearTok_head {tok : List Char} (h : YearTok tok = true) :
    ∃ d rest, tok = d :: rest ∧ isD d = true := by
  match tok, h with
  | [d1, d2, d3, d4], h =>
      simp only [YearTok, Bool.and_eq_true] at h
      exact ⟨d1, _, rfl, h.1.1.1⟩
  | [d1, d2, d3, d4, c], h =>
      simp only [YearTok, Bool.and_eq_true] at h
      exact ⟨d1, _, rfl, h.1.1.1.1⟩

/-- Completeness of the token matcher: a delimited year token at the head of
the list is matched, capturing exactly the token. -/
theorem matchYearAt_complete (tok post : List Char)
    (hy : YearTok tok = true) (hp : PostOK post = true) :
    matchYearAt (tok ++ post) = some (tok, post) := by
  match tok, hy with
  | [d1, d2, d3, d4], hy =>
      simp only [YearTok, Bool.and_eq_true] at hy
      obtain ⟨⟨⟨h1, h2⟩, h3⟩, h4⟩ := hy
      cases post with
      | nil => simp [matchYearAt, h1, h2, h3, h4]
      | cons c rest =>
          have hc : c = '_' := by simpa [PostOK] using hp
          subst hc
          simp [matchYearAt, h1, h2, h3, h4]
  | [d1, d2, d3, d4, e], hy =>
      simp only [YearTok, Bool.and_eq_true] at hy
      obtain ⟨⟨⟨⟨h1, h2⟩, h3⟩, h4⟩, h5⟩ := hy
      have he : e ≠ '_' := isL_ne_underscore h5
      cases post with
      | nil => simp [matchYearAt, h1, h2, h3, h4, h5, he]
      | cons c rest =>
          have hc : c = '_' := by simpa [PostOK] using hp
          subst hc
          simp [matchYearAt, h1, h2, h3, h4, h5, he]

/-- Soundness of the token matcher. -/
theorem matchYearAt_sound (l tok post : List Char) (h : matchYearAt l = some (tok, post)) :
    l = tok ++ post ∧ YearTok tok = true ∧ PostOK post = true := by
  match l with
  | [] => simp [matchYearAt] at h
  | [a] => simp [matchYearAt] at h
  | [a, b] => simp [matchYearAt] at h
  | [a, b, c] => simp [matchYearAt] at h
  | d1 :: d2 :: d3 :: d4 :: rest =>
      by_cases hd : (isD d1 && isD d2 && isD d3 && isD d4) = true
      · cases rest with
        | nil =>
            simp only [matchYearAt, hd, if_true, Option.some.injEq, Prod.mk.injEq] at h
            obtain ⟨h1, h2⟩ := h
            subst h1; subst h2
            exact ⟨by simp, by simpa [YearTok] using hd, by simp [PostOK]⟩
        | cons c rest2 =>
            by_cases hc : c = '_'
            · subst hc
              simp only [matchYearAt, hd, if_true, if_pos rfl, Option.some.injEq,
                Prod.mk.injEq] at h
              obtain ⟨h1, h2⟩ := h
              subst h1; subst h2
              exact ⟨by simp, by simpa [YearTok] using hd, by simp [PostOK]⟩
            · by_cases hl : isL c = true
              · cases rest2 with
                | nil =>
                    simp only [matchYearAt, hd, if_true, if_neg hc, hl, Option.some.injEq,
                      Prod.mk.injEq] at h
                    obtain ⟨h1, h2⟩ := h
                    subst h1; subst h2
                    exact ⟨by simp, by simp [YearTok, hd, hl], by simp [PostOK]⟩
                | cons c2 rest3 =>
                    by_cases hc2 : c2 = '_'
                    · subst hc2
                      simp only [matchYearAt, hd, if_true, if_neg hc, hl, if_pos rfl,
                        Option.some.injEq, Prod.mk.injEq] at h
                      obtain ⟨h1, h2⟩ := h
                      subst h1; subst h2
                      exact ⟨by simp, by simp [YearTok, hd, hl], by simp [PostOK]⟩
                    · simp only [matchYearAt, hd, if_true, if_neg hc, hl, if_neg hc2] at h
                      exact absurd h (by simp)
              · simp only [matchYearAt, hd, if_true, if_neg hc, hl] at h
                cases rest2 <;> simp_all
      · simp only [matchYearAt] at h
        rw [if_neg hd] at h
        exact absurd h (by simp)

/-- Soundness of the scanning phase. -/
theorem scanUnderscore_sound (l acc a tok post : List Char)
    (h : scanUnderscore acc l = some (a, tok, post)) :
    CandU (acc.reverse ++ l) a tok post := by
  induction l generalizing acc with
  | nil => simp [scanUnderscore] at h
  | cons c rest ih =>
      by_cases hc : c = '_'
      · subst hc
        cases hm : matchYearAt rest with
        | some pr =>
            obtain ⟨tok0, post0⟩ := pr
            rw [scanUnderscore, if_pos rfl, hm] at h
            simp only [Option.some.injEq, Prod.mk.injEq] at h
            obtain ⟨h1, h2, h3⟩ := h
            subst h1; subst h2; subst h3
            have hs := matchYearAt_sound rest tok0 post0 hm
            exact ⟨by rw [hs.1], hs.2.1, hs.2.2⟩
        | none =>
            simp only [scanUnderscore, hm, if_pos rfl] at h
            have := ih ('_' :: acc) h
            simpa [List.append_assoc] using this
      · simp only [scanUnderscore, if_neg hc] at h
        have := ih (c :: acc) h
        simpa [List.append_assoc] using this

/-- Completeness plus leftmostness of the scanning phase: if the stem holds a
scanning-phase match past the already-scanned region `acc`, and that match is
the leftmost one there, the scanner returns exactly it. -/
theorem scanUnderscore_complete :
    ∀ l acc a tok post : List Char,
      CandU (acc.reverse ++ l) a tok post →
      acc.length ≤ a.length →
      (∀ a' tok' post', CandU (acc.reverse ++ l) a' tok' post' →
         acc.length ≤ a'.length → a.length ≤ a'.length) →
      scanUnderscore acc l = some (a, tok, post) := by
  intro l
  induction l with
  | nil =>
      intro acc a tok post hc hge _
      exfalso
      obtain ⟨hs, _, _⟩ := hc
      have hlen := congrArg List.length hs
      simp [List.length_append] at hlen
      omega
  | cons c rest ih =>
      intro acc a tok post hc hge hmin
      by_cases hcu : c = '_'
      · subst hcu
        cases hm : matchYearAt rest with
        | some pr =>
            obtain ⟨tok0, post0⟩ := pr
            have hs0 := matchYearAt_sound rest tok0 post0 hm
            have hcand0 : CandU (acc.reverse ++ '_' :: rest) acc.reverse tok0 post0 :=
              ⟨by rw [hs0.1], hs0.2.1, hs0.2.2⟩
            have hle : a.length ≤ acc.length := by
              simpa using hmin _ _ _ hcand0 (by simp)
            have heq : acc.reverse.length = a.length := by
              simp [Nat.le_antisymm hle hge]
            obtain ⟨hs, hy, hp⟩ := hc
            have hinj := List.append_inj hs heq
            have ha : acc.reverse = a := hinj.1
            have hrest : rest = tok ++ post := by
              have := hinj.2
              injection this
            have hcm : matchYearAt rest = some (tok, post) := by
              rw [hrest]
              exact matchYearAt_complete tok post hy hp
            rw [hm] at hcm
            simp only [Option.some.injEq, Prod.mk.injEq] at hcm
            obtain ⟨h1, h2⟩ := hcm
            simp [scanUnderscore, hm, ha, h1, h2]
        | none =>
            have hgt : acc.length + 1 ≤ a.length := by
              rcases Nat.lt_or_ge acc.length a.length with hlt | hge2
              · omega
              · exfalso
                have heq : acc.reverse.length = a.length := by
                  simp [Nat.le_antisymm hge2 hge]
                obtain ⟨hs, hy, hp⟩ := hc
                have hinj := List.append_inj hs heq
                have hrest : rest = tok ++ post := by
                  have := hinj.2
                  injection this
                rw [hrest, matchYearAt_complete tok post hy hp] at hm
                exact Option.noConfusion hm
            have hstem : (('_' :: acc).reverse ++ rest) = acc.reverse ++ '_' :: rest := by
              simp [List.append_assoc]
            rw [scanUnderscore, if_pos rfl, hm]
            apply ih ('_' :: acc) a tok post
            · rw [hstem]; exact hc
            · simpa using hgt
            · intro a' tok' post' hcand' hge'
              apply hmin a' tok' post'
              · rw [← hstem]; exact hcand'
              · simp at hge'
                omega
      · have hgt : acc.length + 1 ≤ a.length := by
          rcases Nat.lt_or_ge acc.length a.length with hlt | hge2
          · omega
          · exfalso
            have heq : acc.reverse.length = a.length := by
              simp [Nat.le_antisymm hge2 hge]
            obtain ⟨hs, _, _⟩ := hc
            have hinj := List.append_inj hs heq
            have : ('_' : Char) = c := by
              have := hinj.2
              injection this with h1 _
              exact h1.symm
            exact hcu this.symm
        have hstem : ((c :: acc).reverse ++ rest) = acc.reverse ++ c :: rest := by
          simp [List.append_assoc]
        rw [scanUnderscore, if_neg hcu]
        apply ih (c :: acc) a tok post
        · rw [hstem]; exact hc
        · simpa using hgt
        · intro a' tok' post' hcand' hge'
          apply hmin a' tok' post'
          · rw [← hstem]; exact hcand'
          · simp at hge'
            omega

/-- Soundness of `searchYear`: a returned match is a year split. -/
theorem searchYear_sound (stem a tok post : List Char)
    (h : searchYear stem = some (a, tok, post)) :
    ∃ d, IsYearSplit stem a d tok post := by
  rw [searchYear] at h
  cases hm : matchYearAt stem with
  | some pr =>
      obtain ⟨tok0, post0⟩ := pr
      rw [hm] at h
      simp only [Option.some.injEq, Prod.mk.injEq] at h
      obtain ⟨h1, h2, h3⟩ := h
      subst h1; subst h2; subst h3
      have hs := matchYearAt_sound stem tok0 post0 hm
      exact ⟨[], by simpa using hs.1, hs.2.1, hs.2.2, Or.inl ⟨rfl, rfl⟩⟩
  | none =>
      rw [hm] at h
      have hs := scanUnderscore_sound stem [] a tok post h
      obtain ⟨h1, h2, h3⟩ := hs
      refine ⟨['_'], ?_, h2, h3, Or.inr rfl⟩
      simpa using h1

/-- Completeness plus leftmostness of `searchYear`: given the leftmost year
split of a stem, the search returns exactly its components. -/
theorem searchYear_complete (stem a d tok post : List Char)
    (h : IsYearSplit stem a d tok post)
    (hmin : ∀ a' d' tok' post', IsYearSplit stem a' d' tok' post' → a.length ≤ a'.length) :
    searchYear stem = some (a, tok, post) := by
  obtain ⟨hs, hy, hp, hd⟩ := h
  rw [searchYear]
  cases hm : matchYearAt stem with
  | some pr =>
      obtain ⟨tok0, post0⟩ := pr
      have hs0 := matchYearAt_sound stem tok0 post0 hm
      have hcand0 : IsYearSplit stem [] [] tok0 post0 :=
        ⟨by simpa using hs0.1, hs0.2.1, hs0.2.2, Or.inl ⟨rfl, rfl⟩⟩
      have ha : a = [] := by
        simpa using hmin [] [] tok0 post0 hcand0
      subst ha
      rcases hd with ⟨-, hdd⟩ | hdd
      · subst hdd
        have hstem : stem = tok ++ post := by simpa using hs
        have hcm : matchYearAt stem = some (tok, post) := by
          rw [hstem]
          exact matchYearAt_complete tok post hy hp
        rw [hm] at hcm
        simp only [Option.some.injEq, Prod.mk.injEq] at hcm
        simp [hcm.1, hcm.2]
      · subst hdd
        exfalso
        have hstem : stem = '_' :: (tok ++ post) := by simpa using hs
        obtain ⟨dh, drest, hth, hdig⟩ := yearTok_head hs0.2.1
        rw [hth] at hs0
        have hhead : ('_' : Char) = dh := by
          have hx := congrArg (fun l => l.headD ' ') (hstem.symm.trans hs0.1)
          simpa using hx
        rw [← hhead] at hdig
        revert hdig
        decide
  | none =>
      rcases hd with ⟨ha, hdd⟩ | hdd
      · exfalso
        subst ha; subst hdd
        have hstem : stem = tok ++ post := by simpa using hs
        rw [hstem, matchYearAt_complete tok post hy hp] at hm
        exact Option.noConfusion hm
      · subst hdd
        apply scanUnderscore_complete stem [] a tok post
        · exact ⟨by simpa [List.append_assoc] using hs, hy, hp⟩
        · exact Nat.zero_le _
        · intro a' tok' post' hcand' _
          exact hmin a' ['_'] tok' post'
            ⟨by simpa [List.append_assoc] using hcand'.1, hcand'.2.1, hcand'.2.2, Or.inr rfl⟩

/-- **C9.** `parse_filename`: if the stem contains a delimited year token
(4 digits optionally followed by one lowercase letter, delimited by
underscores or string boundaries), then the year is the first (leftmost) such
token, the author is everything before the match, and the title is everything
after the token with delimiting underscores dropped, remaining underscores
replaced by spaces, and surrounding whitespace stripped; absent such a token,
the stem is split on the first two underscores into author, year, and title
(with underscores in the title replaced by spaces). -/
theorem claim_C9_parse_filename :
    (∀ (stem : String) (a d tok post : List Char),
       IsYearSplit stem.data a d tok post →
       (∀ a' d' tok' post', IsYearSplit stem.data a' d' tok' post' → a.length ≤ a'.length) →
       parse_filename stem =
         { author := ⟨a⟩, year := ⟨tok⟩
           title := ⟨pyStripL ((post.dropWhile (fun c => c = '_')).map usToSpace)⟩ }) ∧
    (∀ stem : String,
       (∀ a d tok post, ¬ IsYearSplit stem.data a d tok post) →
       parse_filename stem =
         { author := ⟨(pySplit2 stem.data).getD 0 []⟩
           year := ⟨(pySplit2 stem.data).getD 1 []⟩
           title := ⟨((pySplit2 stem.data).getD 2 []).map usToSpace⟩ }) := by
  constructor
  · intro stem a d tok post h hmin
    have hse := searchYear_complete stem.data a d tok post h hmin
    simp [parse_filename, hse]
  · intro stem hnone
    cases hm : searchYear stem.data with
    | some pr =>
        exfalso
        obtain ⟨a, tok, post⟩ := pr
        obtain ⟨d, hd⟩ := searchYear_sound stem.data a tok post hm
        exact hnone a d tok post hd
    | none => simp [parse_filename, hm]

/-- Witness for C9 at a concrete input: the stem `1980_Title` has its year
token at the very start, so the author is empty and the title follows. -/
theorem claim_C9_witness :
    parse_filename "1980_Title" = { author := "", year := "1980", title := "Title" } := by
  have h := claim_C9_parse_filename.1 "1980_Title" [] [] "1980".data "_Title".data
    ⟨by decide, by decide, by decide, Or.inl ⟨rfl, rfl⟩⟩
    (fun a' d' tok' post' _ => Nat.zero_le _)
  rw [h]
  decide

/-- `countFigs` over an append. -/
theorem countFigs_append (r : String) (fs gs : List Fig) :
    countFigs r (fs ++ gs) = countFigs r fs + countFigs r gs := by
  simp [countFigs, List.filter_append]

/-- A positive `countFigs` is an inhabitant. -/
theorem countFigs_pos_iff (r : String) (fs : List Fig) :
    1 ≤ countFigs r fs ↔ ∃ f ∈ fs, f.picture_ref = r := by
  rw [countFigs]
  constructor
  · intro h
    rcases List.exists_mem_of_length_pos h with ⟨f, hf⟩
    have := List.mem_filter.mp hf
    exact ⟨f, this.1, by simpa using this.2⟩
  · rintro ⟨f, hf, hr⟩
    have : f ∈ fs.filter (fun f => f.picture_ref = r) := List.mem_filter.mpr ⟨hf, by simpa using hr⟩
    exact List.length_pos.mpr (List.ne_nil_of_mem this)

/-- A zero `countFigs` means no entry carries the ref. -/
theorem countFigs_eq_zero_iff (r : String) (fs : List Fig) :
    countFigs r fs = 0 ↔ ∀ f ∈ fs, f.picture_ref ≠ r := by
  constructor
  · intro h f hf hr
    have := (countFigs_pos_iff r fs).mpr ⟨f, hf, hr⟩
    omega
  · intro h
    by_contra hne
    have : 1 ≤ countFigs r fs := by omega
    rcases (countFigs_pos_iff r fs).mp this with ⟨f, hf, hr⟩
    exact h f hf hr

/-- A sublist has a smaller `countFigs`. -/
theorem countFigs_le_of_sublist {fs gs : List Fig} (h : List.Sublist fs gs) (r : String) :
    countFigs r fs ≤ countFigs r gs :=
  List.Sublist.length_le (List.Sublist.filter _ h)

/-- `countRef` over a cons of chunks. -/
theorem countRef_cons (r : String) (c : Chunk) (rest : List Chunk) :
    countRef r (c :: rest) = countFigs r c.figures + countRef r rest := by
  simp [countRef]

/-- The kept figures of `crossFigs` are a sublist of the originals. -/
theorem crossFigs_sublist (seen : List String) (fs : List Fig) :
    List.Sublist (crossFigs seen fs).1 fs := by
  induction fs generalizing seen with
  | nil => simp [crossFigs]
  | cons f fs ih =>
      by_cases hk : f.picture_ref ≠ "" ∧ f.picture_ref ∈ seen
      · simp only [crossFigs, if_pos hk]
        exact List.Sublist.cons f (ih seen)
      · simp only [crossFigs, if_neg hk]
        exact List.Sublist.cons₂ f (ih _)

/-- `crossFigs` only grows the seen set. -/
theorem crossFigs_seen_mono (seen : List String) (fs : List Fig) {x : String}
    (h : x ∈ seen) : x ∈ (crossFigs seen fs).2.1 := by
  induction fs generalizing seen with
  | nil => simpa [crossFigs] using h
  | cons f fs ih =>
      by_cases hk : f.picture_ref ≠ "" ∧ f.picture_ref ∈ seen
      · simp only [crossFigs, if_pos hk]
        exact ih seen h
      · simp only [crossFigs, if_neg hk]
        by_cases hf : f.picture_ref ≠ ""
        · rw [if_pos hf]
          exact ih _ (List.mem_cons.mpr (Or.inr h))
        · rw [if_neg hf]
          exact ih _ h

/-- A truthy ref already seen is fully removed by `crossFigs`. -/
theorem crossFigs_count_seen (seen : List String) (fs : List Fig) (r : String)
    (hr : r ≠ "") (h : r ∈ seen) : countFigs r (crossFigs seen fs).1 = 0 := by
  induction fs generalizing seen with
  | nil => simp [crossFigs, countFigs]
  | cons f fs ih =>
      by_cases hk : f.picture_ref ≠ "" ∧ f.picture_ref ∈ seen
      · simp only [crossFigs, if_pos hk]
        exact ih seen h
      · simp only [crossFigs, if_neg hk]
        have hfr : f.picture_ref ≠ r := by
          intro he
          exact hk ⟨he ▸ hr, he ▸ h⟩
        by_cases hf : f.picture_ref ≠ ""
        · rw [if_pos hf]
          have := ih (f.picture_ref :: seen) (List.mem_cons.mpr (Or.inr h))
          simpa [countFigs, List.filter_cons, hfr] using this
        · rw [if_neg hf]
          have := ih seen h
          simpa [countFigs, List.filter_cons, hfr] using this

/-- After `crossFigs`, each truthy ref occurs at most once (and not at all if
it was already seen). -/
theorem crossFigs_count_le (seen : List String) (fs : List Fig) (r : String) (hr : r ≠ "") :
    countFigs r (crossFigs seen fs).1 ≤ if r ∈ seen then 0 else 1 := by
  induction fs generalizing seen with
  | nil =>
      by_cases h : r ∈ seen <;> simp [crossFigs, countFigs, h]
  | cons f fs ih =>
      by_cases hk : f.picture_ref ≠ "" ∧ f.picture_ref ∈ seen
      · simp only [crossFigs, if_pos hk]
        exact ih seen
      · simp only [crossFigs, if_neg hk]
        by_cases hf : f.picture_ref ≠ ""
        · rw [if_pos hf]
          by_cases hfr : f.picture_ref = r
          · subst hfr
            have h1 : f.picture_ref ∉ seen := fun h => hk ⟨hf, h⟩
            have h2 := crossFigs_count_seen (f.picture_ref :: seen) fs f.picture_ref hf
              (List.mem_cons_self _ _)
            rw [if_neg h1]
            simp only [countFigs] at h2 ⊢
            simp [List.filter_cons, h2]
          · have hmem : r ∈ f.picture_ref :: seen → r ∈ seen := by
              intro h
              rcases List.mem_cons.mp h with h | h
              · exact absurd h.symm hfr
              · exact h
            have hif : (if r ∈ f.picture_ref :: seen then 0 else 1)
                = (if r ∈ seen then 0 else 1) := by
              by_cases hs : r ∈ seen
              · rw [if_pos hs, if_pos (List.mem_cons.mpr (Or.inr hs))]
              · rw [if_neg hs, if_neg (fun h => hs (hmem h))]
            calc countFigs r (f :: (crossFigs (f.picture_ref :: seen) fs).1)
                = countFigs r (crossFigs (f.picture_ref :: seen) fs).1 := by
                  simp [countFigs, List.filter_cons, hfr]
              _ ≤ if r ∈ f.picture_ref :: seen then 0 else 1 := ih _
              _ = _ := hif
        · rw [if_neg hf]
          have hfe : f.picture_ref = "" := not_not.mp hf
          have hfr : f.picture_ref ≠ r := by
            rw [hfe]
            exact fun h => hr h.symm
          calc countFigs r (f :: (crossFigs seen fs).1)
              = countFigs r (crossFigs seen fs).1 := by
                simp [countFigs, List.filter_cons, hfr]
            _ ≤ _ := ih seen

/-- The final seen set of `crossFigs` holds a truthy ref iff it was already
seen or survives in the kept figures. -/
theorem crossFigs_seen_iff (seen : List String) (fs : List Fig) (r : String) (hr : r ≠ "") :
    r ∈ (crossFigs seen fs).2.1 ↔ (r ∈ seen ∨ 1 ≤ countFigs r (crossFigs seen fs).1) := by
  induction fs generalizing seen with
  | nil => simp [crossFigs, countFigs]
  | cons f fs ih =>
      by_cases hk : f.picture_ref ≠ "" ∧ f.picture_ref ∈ seen
      · simp only [crossFigs, if_pos hk]
        exact ih seen
      · simp only [crossFigs, if_neg hk]
        by_cases hf : f.picture_ref ≠ ""
        · rw [if_pos hf]
          by_cases hfr : f.picture_ref = r
          · subst hfr
            have h1 : f.picture_ref ∉ seen := fun h => hk ⟨hf, h⟩
            constructor
            · intro _
              refine Or.inr ?_
              have : countFigs f.picture_ref (f :: (crossFigs (f.picture_ref :: seen) fs).1)
                  = 1 + countFigs f.picture_ref (crossFigs (f.picture_ref :: seen) fs).1 := by
                simp [countFigs, List.filter_cons, Nat.add_comm]
              omega
            · intro _
              exact crossFigs_seen_mono _ _ (List.mem_cons_self _ _)
          · have hcnt : countFigs r (f :: (crossFigs (f.picture_ref :: seen) fs).1)
                = countFigs r (crossFigs (f.picture_ref :: seen) fs).1 := by
              simp [countFigs, List.filter_cons, hfr]
            rw [hcnt, ih (f.picture_ref :: seen)]
            constructor
            · rintro (h | h)
              · rcases List.mem_cons.mp h with h | h
                · exact absurd h.symm hfr
                · exact Or.inl h
              · exact Or.inr h
            · rintro (h | h)
              · exact Or.inl (List.mem_cons.mpr (Or.inr h))
              · exact Or.inr h
        · rw [if_neg hf]
          have hfe : f.picture_ref = "" := not_not.mp hf
          have hfr : f.picture_ref ≠ r := by
            rw [hfe]
            exact fun h => hr h.symm
          have hcnt : countFigs r (f :: (crossFigs seen fs).1)
              = countFigs r (crossFigs seen fs).1 := by
            simp [countFigs, List.filter_cons, hfr]
          rw [hcnt]
          exact ih seen

/-- A truthy unseen ref present in the input survives `crossFigs`. -/
theorem crossFigs_present (seen : List String) (fs : List Fig) (r : String) (hr : r ≠ "")
    (hns : r ∉ seen) (h : 1 ≤ countFigs r fs) :
    1 ≤ countFigs r (crossFigs seen fs).1 := by
  induction fs generalizing seen with
  | nil => simpa [countFigs] using h
  | cons f fs ih =>
      by_cases hfr : f.picture_ref = r
      · have hk : ¬(f.picture_ref ≠ "" ∧ f.picture_ref ∈ seen) := by
          rintro ⟨-, hmem⟩
          exact hns (hfr ▸ hmem)
        simp only [crossFigs, if_neg hk]
        by_cases hf : f.picture_ref ≠ ""
        · rw [if_pos hf]
          have : countFigs r (f :: (crossFigs (f.picture_ref :: seen) fs).1)
              = 1 + countFigs r (crossFigs (f.picture_ref :: seen) fs).1 := by
            simp [countFigs, List.filter_cons, hfr, Nat.add_comm]
          omega
        · rw [if_neg hf]
          have : countFigs r (f :: (crossFigs seen fs).1)
              = 1 + countFigs r (crossFigs seen fs).1 := by
            simp [countFigs, List.filter_cons, hfr, Nat.add_comm]
          omega
      · have hc : 1 ≤ countFigs r fs := by
          have : countFigs r (f :: fs) = countFigs r fs := by
            simp [countFigs, List.filter_cons, hfr]
          omega
        by_cases hk : f.picture_ref ≠ "" ∧ f.picture_ref ∈ seen
        · simp only [crossFigs, if_pos hk]
          exact ih seen hns hc
        · simp only [crossFigs, if_neg hk]
          by_cases hf : f.picture_ref ≠ ""
          · rw [if_pos hf]
            have hns2 : r ∉ f.picture_ref :: seen := by
              intro h2
              rcases List.mem_cons.mp h2 with h2 | h2
              · exact hfr h2.symm
              · exact hns h2
            have := ih (f.picture_ref :: seen) hns2 hc
            have hcnt : countFigs r (f :: (crossFigs (f.picture_ref :: seen) fs).1)
                = countFigs r (crossFigs (f.picture_ref :: seen) fs).1 := by
              simp [countFigs, List.filter_cons, hfr]
            omega
          · rw [if_neg hf]
            have := ih seen hns hc
            have hcnt : countFigs r (f :: (crossFigs seen fs).1)
                = countFigs r (crossFigs seen fs).1 := by
              simp [countFigs, List.filter_cons, hfr]
            omega

/-- Document-wide bound after the chunk loop of cross-chunk dedup: a truthy
ref occurs at most once across all chunks (not at all when already seen). -/
theorem crossChunks_count_le (chunks : List Chunk) (seen : List String) (r : String)
    (hr : r ≠ "") :
    countRef r (crossChunks seen chunks).1 ≤ if r ∈ seen then 0 else 1 := by
  induction chunks generalizing seen with
  | nil =>
      by_cases h : r ∈ seen <;> simp [crossChunks, countRef, h]
  | cons c rest ih =>
      simp only [crossChunks]
      rw [countRef_cons]
      dsimp only
      have hhd := crossFigs_count_le seen c.figures r hr
      have htl := ih (crossFigs seen c.figures).2.1
      by_cases hs : r ∈ seen
      · rw [if_pos hs] at hhd ⊢
        have hs2 : r ∈ (crossFigs seen c.figures).2.1 := crossFigs_seen_mono seen c.figures hs
        rw [if_pos hs2] at htl
        omega
      · rw [if_neg hs] at hhd ⊢
        by_cases hkept : 1 ≤ countFigs r (crossFigs seen c.figures).1
        · have hs2 : r ∈ (crossFigs seen c.figures).2.1 :=
            (crossFigs_seen_iff seen c.figures r hr).mpr (Or.inr hkept)
          rw [if_pos hs2] at htl
          omega
        · have h0 : countFigs r (crossFigs seen c.figures).1 = 0 := by omega
          by_cases hs2 : r ∈ (crossFigs seen c.figures).2.1
          · rw [if_pos hs2] at htl
            omega
          · rw [if_neg hs2] at htl
            omega

/-- A truthy unseen ref present somewhere survives cross-chunk dedup. -/
theorem crossChunks_present (chunks : List Chunk) (seen : List String) (r : String)
    (hr : r ≠ "") (hns : r ∉ seen) (h : 1 ≤ countRef r chunks) :
    1 ≤ countRef r (crossChunks seen chunks).1 := by
  induction chunks generalizing seen with
  | nil => simpa [countRef] using h
  | cons c rest ih =>
      simp only [crossChunks]
      rw [countRef_cons]
      dsimp only
      rw [countRef_cons] at h
      by_cases hhd : 1 ≤ countFigs r c.figures
      · have := crossFigs_present seen c.figures r hr hns hhd
        omega
      · have htl : 1 ≤ countRef r rest := by omega
        by_cases hs2 : r ∈ (crossFigs seen c.figures).2.1
        · have := (crossFigs_seen_iff seen c.figures r hr).mp hs2
          rcases this with h | h
          · exact absurd h hns
          · omega
        · have := ih (crossFigs seen c.figures).2.1 hs2 htl
          omega

/-- Cross-chunk dedup only removes entries, so counts never grow. -/
theorem crossChunks_count_mono (chunks : List Chunk) (seen : List String) (r : String) :
    countRef r (crossChunks seen chunks).1 ≤ countRef r chunks := by
  induction chunks generalizing seen with
  | nil => simp [crossChunks]
  | cons c rest ih =>
      simp only [crossChunks]
      rw [countRef_cons, countRef_cons]
      dsimp only
      have h1 := countFigs_le_of_sublist (crossFigs_sublist seen c.figures) r
      have h2 := ih (crossFigs seen c.figures).2.1
      omega

/-- Cross-chunk dedup leaves every chunk's page numbers unchanged. -/
theorem crossChunks_pages (chunks : List Chunk) (seen : List String) :
    (crossChunks seen chunks).1.map (fun c => c.page_numbers) =
      chunks.map (fun c => c.page_numbers) := by
  induction chunks generalizing seen with
  | nil => simp [crossChunks]
  | cons c rest ih => simp [crossChunks, ih]

/-- Every chunk out of cross-chunk dedup is an original chunk with a sublist
of its figures and identical tables. -/
theorem crossChunks_shape (chunks : List Chunk) (seen : List String) :
    ∀ c' ∈ (crossChunks seen chunks).1, ∃ c ∈ chunks,
      List.Sublist c'.figures c.figures ∧ c'.tables = c.tables := by
  induction chunks generalizing seen with
  | nil => simp [crossChunks]
  | cons c rest ih =>
      intro c' hc'
      simp only [crossChunks, List.mem_cons] at hc'
      rcases hc' with hc' | hc'
      · subst hc'
        exact ⟨c, List.mem_cons_self _ _, crossFigs_sublist seen c.figures, rfl⟩
      · obtain ⟨c0, hc0, hsub, htab⟩ := ih (crossFigs seen c.figures).2.1 c' hc'
        exact ⟨c0, List.mem_cons.mpr (Or.inr hc0), hsub, htab⟩

/-- Per-chunk figure dedup yields a sublist. -/
theorem dedupFigs_sublist (seen : List String) (fs : List Fig) :
    List.Sublist (dedupFigs seen fs) fs := by
  induction fs generalizing seen with
  | nil => simp [dedupFigs]
  | cons f fs ih =>
      by_cases hk : f.picture_ref ∈ seen
      · simp only [dedupFigs, if_pos hk]
        exact List.Sublist.cons f (ih seen)
      · simp only [dedupFigs, if_neg hk]
        exact List.Sublist.cons₂ f (ih _)

/-- Per-chunk table dedup yields a sublist. -/
theorem dedupTbls_sublist (seen : List String) (ts : List Tbl) :
    List.Sublist (dedupTbls seen ts) ts := by
  induction ts generalizing seen with
  | nil => simp [dedupTbls]
  | cons t ts ih =>
      by_cases hk : t.csv_file ∈ seen
      · simp only [dedupTbls, if_pos hk]
        exact List.Sublist.cons t (ih seen)
      · simp only [dedupTbls, if_neg hk]
        exact List.Sublist.cons₂ t (ih _)

/-- Per-chunk figure dedup: the kept keys avoid `seen` and are distinct. -/
theorem dedupFigs_nodup (seen : List String) (fs : List Fig) :
    ((dedupFigs seen fs).map (fun f => f.picture_ref)).Nodup ∧
      ∀ f ∈ dedupFigs seen fs, f.picture_ref ∉ seen := by
  induction fs generalizing seen with
  | nil => simp [dedupFigs]
  | cons f fs ih =>
      by_cases hk : f.picture_ref ∈ seen
      · simp only [dedupFigs, if_pos hk]
        exact ih seen
      · simp only [dedupFigs, if_neg hk]
        obtain ⟨hnd, havoid⟩ := ih (f.picture_ref :: seen)
        refine ⟨?_, ?_⟩
        · simp only [List.map_cons, List.nodup_cons]
          refine ⟨?_, hnd⟩
          intro hmem
          rcases List.mem_map.mp hmem with ⟨g, hg, hgr⟩
          exact havoid g hg (hgr ▸ List.mem_cons_self _ _)
        · intro g hg
          rcases List.mem_cons.mp hg with hg | hg
          · exact hg ▸ hk
          · intro hmem
            exact havoid g hg (List.mem_cons.mpr (Or.inr hmem))

/-- Per-chunk table dedup: the kept keys avoid `seen` and are distinct. -/
theorem dedupTbls_nodup (seen : List String) (ts : List Tbl) :
    ((dedupTbls seen ts).map (fun t => t.csv_file)).Nodup ∧
      ∀ t ∈ dedupTbls seen ts, t.csv_file ∉ seen := by
  induction ts generalizing seen with
  | nil => simp [dedupTbls]
  | cons t ts ih =>
      by_cases hk : t.csv_file ∈ seen
      · simp only [dedupTbls, if_pos hk]
        exact ih seen
      · simp only [dedupTbls, if_neg hk]
        obtain ⟨hnd, havoid⟩ := ih (t.csv_file :: seen)
        refine ⟨?_, ?_⟩
        · simp only [List.map_cons, List.nodup_cons]
          refine ⟨?_, hnd⟩
          intro hmem
          rcases List.mem_map.mp hmem with ⟨g, hg, hgr⟩
          exact havoid g hg (hgr ▸ List.mem_cons_self _ _)
        · intro g hg
          rcases List.mem_cons.mp hg with hg | hg
          · exact hg ▸ hk
          · intro hmem
            exact havoid g hg (List.mem_cons.mpr (Or.inr hmem))

/-- Every key of the input figure list is either in `seen` or represented in
the dedup output (first occurrence wins). -/
theorem dedupFigs_mem_key (seen : List String) (fs : List Fig) :
    ∀ f ∈ fs, f.picture_ref ∈ seen ∨ ∃ g ∈ dedupFigs seen fs, g.picture_ref = f.picture_ref := by
  induction fs generalizing seen with
  | nil => simp
  | cons f fs ih =>
      intro g hg
      rcases List.mem_cons.mp hg with hg | hg
      · subst hg
        by_cases hk : g.picture_ref ∈ seen
        · exact Or.inl hk
        · refine Or.inr ⟨g, ?_, rfl⟩
          simp [dedupFigs, hk]
      · by_cases hk : f.picture_ref ∈ seen
        · simpa [dedupFigs, hk] using ih seen g hg
        · rcases ih (f.picture_ref :: seen) g hg with h | ⟨g', hg', hgr⟩
          · rcases List.mem_cons.mp h with h | h
            · refine Or.inr ⟨f, ?_, h.symm⟩
              simp [dedupFigs, hk]
            · exact Or.inl h
          · refine Or.inr ⟨g', ?_, hgr⟩
            simp [dedupFigs, hk, hg']

/-- A present truthy ref stays present through per-chunk figure dedup. -/
theorem dedupFigs_present (fs : List Fig) (r : String) (h : 1 ≤ countFigs r fs) :
    1 ≤ countFigs r (dedupFigs [] fs) := by
  rcases (countFigs_pos_iff r fs).mp h with ⟨f, hf, hr⟩
  rcases dedupFigs_mem_key [] fs f hf with hmem | ⟨g, hg, hgr⟩
  · simp at hmem
  · exact (countFigs_pos_iff r _).mpr ⟨g, hg, hgr.trans hr⟩

/-- `dedup_per_chunk` leaves page numbers unchanged. -/
theorem dedup_per_chunk_pages (chunks : List Chunk) :
    (dedup_per_chunk chunks).map (fun c => c.page_numbers) =
      chunks.map (fun c => c.page_numbers) := by
  simp [dedup_per_chunk]

/-- A present truthy ref stays present through `dedup_per_chunk`. -/
theorem dedup_per_chunk_present (chunks : List Chunk) (r : String)
    (h : 1 ≤ countRef r chunks) : 1 ≤ countRef r (dedup_per_chunk chunks) := by
  induction chunks with
  | nil => simpa [countRef] using h
  | cons c rest ih =>
      rw [countRef_cons] at h
      have hstep : countRef r (dedup_per_chunk (c :: rest)) =
          countFigs r (dedupFigs [] c.figures) + countRef r (dedup_per_chunk rest) := by
        simp [dedup_per_chunk, countRef]
      rw [hstep]
      by_cases hhd : 1 ≤ countFigs r c.figures
      · have := dedupFigs_present c.figures r hhd
        omega
      · have h2 : 1 ≤ countRef r rest := by omega
        have := ih h2
        omega

/-- `resolveFig` never changes the ref of an entry. -/
theorem resolveFig_ref (m : List (String × String)) (f : Fig) :
    (resolveFig m f).1.picture_ref = f.picture_ref := by
  rw [resolveFig]
  by_cases h : f.image_file ≠ ""
  · rw [if_pos h]
  · rw [if_neg h]
    cases dictGet? m f.picture_ref <;> simp

/-- `resolveFigs` preserves per-list ref counts. -/
theorem resolveFigs_count (m : List (String × String)) (fs : List Fig) (r : String) :
    countFigs r (resolveFigs m fs).1 = countFigs r fs := by
  induction fs with
  | nil => simp [resolveFigs]
  | cons f fs ih =>
      simp only [resolveFigs]
      by_cases hr : f.picture_ref = r
      · have h1 : (resolveFig m f).1.picture_ref = r := (resolveFig_ref m f).trans hr
        simp [countFigs, List.filter_cons, h1, hr] at ih ⊢
        omega
      · have h1 : ¬ (resolveFig m f).1.picture_ref = r := by
          rw [resolveFig_ref m f]
          exact hr
        simpa [countFigs, List.filter_cons, h1, hr] using ih

/-- `resolve_image_files` preserves document-wide ref counts. -/
theorem resolve_image_files_count (metas : List ImageMeta) (chunks : List Chunk) (r : String) :
    countRef r (resolve_image_files metas chunks).1 = countRef r chunks := by
  induction chunks with
  | nil => simp [resolve_image_files]
  | cons c rest ih =>
      simp only [resolve_image_files]
      rw [countRef_cons, countRef_cons]
      dsimp only
      rw [resolveFigs_count, ih]

/-- `resolve_image_files` leaves page numbers unchanged. -/
theorem resolve_image_files_pages (metas : List ImageMeta) (chunks : List Chunk) :
    (resolve_image_files metas chunks).1.map (fun c => c.page_numbers) =
      chunks.map (fun c => c.page_numbers) := by
  induction chunks with
  | nil => simp [resolve_image_files]
  | cons c rest ih => simp [resolve_image_files, ih]

/-- Each chunk out of `fixChunk` extends its figures by some suffix. -/
theorem fixChunk_shape (pr : String → String → ℚ) (threshold : ℚ)
    (capmap : List (String × String)) (c : Chunk) :
    ∃ ex, (fixChunk pr threshold capmap c).1 = { c with figures := c.figures ++ ex } := by
  rw [fixChunk]
  by_cases h : c.text = ""
  · rw [if_pos h]
    exact ⟨[], by simp⟩
  · rw [if_neg h]
    exact ⟨_, rfl⟩

/-- `fixChunks` never loses a ref occurrence. -/
theorem fixChunks_count_mono (pr : String → String → ℚ) (threshold : ℚ)
    (capmap : List (String × String)) (chunks : List Chunk) (r : String) :
    countRef r chunks ≤ countRef r (fixChunks pr threshold capmap chunks).1 := by
  induction chunks with
  | nil => simp [fixChunks]
  | cons c rest ih =>
      simp only [fixChunks]
      rw [countRef_cons, countRef_cons]
      obtain ⟨ex, hex⟩ := fixChunk_shape pr threshold capmap c
      rw [hex]
      dsimp only
      rw [countFigs_append]
      omega

/-- `fixChunks` leaves page numbers unchanged. -/
theorem fixChunks_pages (pr : String → String → ℚ) (threshold : ℚ)
    (capmap : List (String × String)) (chunks : List Chunk) :
    (fixChunks pr threshold capmap chunks).1.map (fun c => c.page_numbers) =
      chunks.map (fun c => c.page_numbers) := by
  induction chunks with
  | nil => simp [fixChunks]
  | cons c rest ih =>
      simp only [fixChunks, List.map_cons]
      obtain ⟨ex, hex⟩ := fixChunk_shape pr threshold capmap c
      rw [hex, ih]

/-- `fix_figure_refs` never loses a ref occurrence. -/
theorem fix_figure_refs_count_mono (fuzz : Option (String → String → ℚ)) (threshold : ℚ)
    (pictures : List Pic) (chunks : List Chunk) (r : String) :
    countRef r chunks ≤ countRef r (fix_figure_refs fuzz threshold pictures chunks).1 := by
  cases fuzz with
  | none => simp [fix_figure_refs]
  | some pr => exact fixChunks_count_mono pr threshold _ chunks r

/-- `fix_figure_refs` leaves page numbers unchanged. -/
theorem fix_figure_refs_pages (fuzz : Option (String → String → ℚ)) (threshold : ℚ)
    (pictures : List Pic) (chunks : List Chunk) :
    (fix_figure_refs fuzz threshold pictures chunks).1.map (fun c => c.page_numbers) =
      chunks.map (fun c => c.page_numbers) := by
  cases fuzz with
  | none => simp [fix_figure_refs]
  | some pr => exact fixChunks_pages pr threshold _ chunks

/-- Membership in `assigned_refs` is presence of the truthy ref in some chunk. -/
theorem assignedRefs_iff (chunks : List Chunk) (r : String) (hr : r ≠ "") :
    r ∈ assignedRefs chunks ↔ 1 ≤ countRef r chunks := by
  induction chunks with
  | nil => simp [assignedRefs, countRef]
  | cons c rest ih =>
      rw [countRef_cons]
      simp only [assignedRefs, List.flatMap_cons, List.mem_append]
      constructor
      · rintro (h | h)
        · rcases List.mem_map.mp h with ⟨f, hf, hfr⟩
          have hf2 := List.mem_filter.mp hf
          have : 1 ≤ countFigs r c.figures :=
            (countFigs_pos_iff r _).mpr ⟨f, hf2.1, hfr⟩
          omega
        · have := (ih.mp (by simpa [assignedRefs] using h))
          omega
      · intro h
        by_cases hhd : 1 ≤ countFigs r c.figures
        · refine Or.inl ?_
          rcases (countFigs_pos_iff r _).mp hhd with ⟨f, hf, hfr⟩
          refine List.mem_map.mpr ⟨f, List.mem_filter.mpr ⟨hf, ?_⟩, hfr⟩
          simpa using hfr ▸ hr
        · have : 1 ≤ countRef r rest := by omega
          refine Or.inr ?_
          simpa [assignedRefs] using ih.mpr this

/-- `updateAt` with a figure-appending update leaves page numbers unchanged. -/
theorem updateAt_pages (chunks : List Chunk) (i : Nat) (fig : Fig) :
    (updateAt chunks i (fun c => { c with figures := c.figures ++ [fig] })).map
        (fun c => c.page_numbers) =
      chunks.map (fun c => c.page_numbers) := by
  induction chunks generalizing i with
  | nil => simp [updateAt]
  | cons c rest ih =>
      cases i with
      | zero => simp [updateAt]
      | succ n => simp [updateAt, ih]

/-- Ref counting through `updateAt` with a figure append. -/
theorem countRef_updateAt (chunks : List Chunk) (i : Nat) (fig : Fig) (r : String)
    (hi : i < chunks.length) :
    countRef r (updateAt chunks i (fun c => { c with figures := c.figures ++ [fig] })) =
      countRef r chunks + (if fig.picture_ref = r then 1 else 0) := by
  induction chunks generalizing i with
  | nil => simp at hi
  | cons c rest ih =>
      cases i with
      | zero =>
          simp only [updateAt]
          rw [countRef_cons, countRef_cons]
          dsimp only
          rw [countFigs_append]
          have : countFigs r [fig] = if fig.picture_ref = r then 1 else 0 := by
            by_cases h : fig.picture_ref = r <;> simp [countFigs, h]
          omega
      | succ n =>
          simp only [updateAt]
          rw [countRef_cons, countRef_cons]
          have := ih n (Nat.lt_of_succ_lt_succ hi)
          omega

/-- A found target index is in range. -/
theorem findTargetIdx_lt (pg : Option Nat) (chunks : List Chunk) (i : Nat)
    (h : findTargetIdx pg chunks = some i) : i < chunks.length := by
  induction chunks generalizing i with
  | nil => simp [findTargetIdx] at h
  | cons c rest ih =>
      rw [findTargetIdx] at h
      by_cases hc : pageCovers pg c
      · rw [if_pos hc] at h
        simp only [Option.some.injEq] at h
        simp only [List.length_cons]
        omega
      · rw [if_neg hc] at h
        cases hrec : findTargetIdx pg rest with
        | none => rw [hrec] at h; simp at h
        | some j =>
            rw [hrec] at h
            simp at h
            have := ih j hrec
            simp only [List.length_cons]
            omega

/-- The target lookup only depends on the chunks' page numbers. -/
theorem findTargetIdx_pages_congr (pg : Option Nat) (chunks chunks' : List Chunk)
    (h : chunks.map (fun c => c.page_numbers) = chunks'.map (fun c => c.page_numbers)) :
    findTargetIdx pg chunks = findTargetIdx pg chunks' := by
  induction chunks generalizing chunks' with
  | nil =>
      cases chunks' with
      | nil => rfl
      | cons c' rest' => simp at h
  | cons c rest ih =>
      cases chunks' with
      | nil => simp at h
      | cons c' rest' =>
          simp only [List.map_cons, List.cons.injEq] at h
          have hcov : pageCovers pg c = pageCovers pg c' := by
            cases pg with
            | none => simp [pageCovers]
            | some p => simp [pageCovers, h.1]
          rw [findTargetIdx, findTargetIdx, hcov, ih rest' h.2]

/-- The fallback-injection loop leaves page numbers unchanged. -/
theorem injectAux_pages (metas : List ImageMeta) (chunks : List Chunk)
    (assigned : List String) :
    (injectAux chunks assigned metas).1.map (fun c => c.page_numbers) =
      chunks.map (fun c => c.page_numbers) := by
  induction metas generalizing chunks assigned with
  | nil => simp [injectAux]
  | cons m rest ih =>
      rw [injectAux]
      by_cases h1 : m.picture_ref = "" ∨ m.picture_ref ∈ assigned
      · rw [if_pos h1]
        exact ih chunks assigned
      · rw [if_neg h1]
        by_cases h2 : pyStripL m.caption.data ≠ []
        · rw [if_pos h2]
          exact ih chunks assigned
        · rw [if_neg h2]
          cases ht : findTargetIdx m.page_number chunks with
          | none => exact ih chunks assigned
          | some i =>
              dsimp only
              rw [ih _ _, updateAt_pages]

/-- The fallback-injection loop never loses a ref occurrence. -/
theorem injectAux_count_mono (metas : List ImageMeta) (chunks : List Chunk)
    (assigned : List String) (r : String) :
    countRef r chunks ≤ countRef r (injectAux chunks assigned metas).1 := by
  induction metas generalizing chunks assigned with
  | nil => simp [injectAux]
  | cons m rest ih =>
      rw [injectAux]
      by_cases h1 : m.picture_ref = "" ∨ m.picture_ref ∈ assigned
      · rw [if_pos h1]
        exact ih chunks assigned
      · rw [if_neg h1]
        by_cases h2 : pyStripL m.caption.data ≠ []
        · rw [if_pos h2]
          exact ih chunks assigned
        · rw [if_neg h2]
          cases ht : findTargetIdx m.page_number chunks with
          | none => exact ih chunks assigned
          | some i =>
              dsimp only
              have hi := findTargetIdx_lt m.page_number chunks i ht
              have hcnt := countRef_updateAt chunks i
                ⟨"", m.picture_ref, "images/" ++ m.slugName ++ ".png"⟩ r hi
              have := ih (updateAt chunks i (fun c =>
                { c with figures := c.figures ++
                    [⟨"", m.picture_ref, "images/" ++ m.slugName ++ ".png"⟩] }))
                (m.picture_ref :: assigned)
              dsimp only at hcnt
              omega

/-- The fallback-injection loop preserves the assigned-set invariant. -/
theorem injectAux_inv (metas : List ImageMeta) (chunks : List Chunk)
    (assigned : List String) (hinv : AssignedInv chunks assigned) :
    AssignedInv (injectAux chunks assigned metas).1 (injectAux chunks assigned metas).2.1 := by
  induction metas generalizing chunks assigned with
  | nil => simpa [injectAux] using hinv
  | cons m rest ih =>
      rw [injectAux]
      by_cases h1 : m.picture_ref = "" ∨ m.picture_ref ∈ assigned
      · rw [if_pos h1]
        exact ih chunks assigned hinv
      · rw [if_neg h1]
        by_cases h2 : pyStripL m.caption.data ≠ []
        · rw [if_pos h2]
          exact ih chunks assigned hinv
        · rw [if_neg h2]
          cases ht : findTargetIdx m.page_number chunks with
          | none => exact ih chunks assigned hinv
          | some i =>
              dsimp only
              apply ih
              intro r hr
              have hi := findTargetIdx_lt m.page_number chunks i ht
              have hcnt := countRef_updateAt chunks i
                ⟨"", m.picture_ref, "images/" ++ m.slugName ++ ".png"⟩ r hi
              dsimp only at hcnt
              by_cases hrm : r = m.picture_ref
              · subst hrm
                rw [if_pos rfl] at hcnt
                constructor
                · intro _
                  omega
                · intro _
                  exact List.mem_cons_self _ _
              · rw [if_neg (fun h => hrm h.symm)] at hcnt
                constructor
                · intro hmem
                  rcases List.mem_cons.mp hmem with hmem | hmem
                  · exact absurd hmem hrm
                  · have := (hinv r hr).mp hmem
                    omega
                · intro hc
                  have : 1 ≤ countRef r chunks := by omega
                  exact List.mem_cons.mpr (Or.inr ((hinv r hr).mpr this))

/-- The fallback-injection loop preserves the at-most-once bound. -/
theorem injectAux_bound (metas : List ImageMeta) (chunks : List Chunk)
    (assigned : List String) (hinv : AssignedInv chunks assigned)
    (hb : ∀ r, r ≠ "" → countRef r chunks ≤ 1) :
    ∀ r, r ≠ "" → countRef r (injectAux chunks assigned metas).1 ≤ 1 := by
  induction metas generalizing chunks assigned with
  | nil => simpa [injectAux] using hb
  | cons m rest ih =>
      rw [injectAux]
      by_cases h1 : m.picture_ref = "" ∨ m.picture_ref ∈ assigned
      · rw [if_pos h1]
        exact ih chunks assigned hinv hb
      · rw [if_neg h1]
        by_cases h2 : pyStripL m.caption.data ≠ []
        · rw [if_pos h2]
          exact ih chunks assigned hinv hb
        · rw [if_neg h2]
          cases ht : findTargetIdx m.page_number chunks with
          | none => exact ih chunks assigned hinv hb
          | some i =>
              dsimp only
              have hi := findTargetIdx_lt m.page_number chunks i ht
              have hm0 : m.picture_ref ≠ "" := fun h => h1 (Or.inl h)
              have hnp : ¬ 1 ≤ countRef m.picture_ref chunks := by
                intro hc
                exact h1 (Or.inr ((hinv m.picture_ref hm0).mpr hc))
              apply ih
              · intro r hr
                have hcnt := countRef_updateAt chunks i
                  ⟨"", m.picture_ref, "images/" ++ m.slugName ++ ".png"⟩ r hi
                dsimp only at hcnt
                by_cases hrm : r = m.picture_ref
                · subst hrm
                  rw [if_pos rfl] at hcnt
                  constructor
                  · intro _
                    omega
                  · intro _
                    exact List.mem_cons_self _ _
                · rw [if_neg (fun h => hrm h.symm)] at hcnt
                  constructor
                  · intro hmem
                    rcases List.mem_cons.mp hmem with hmem | hmem
                    · exact absurd hmem hrm
                    · have := (hinv r hr).mp hmem
                      omega
                  · intro hc
                    have : 1 ≤ countRef r chunks := by omega
                    exact List.mem_cons.mpr (Or.inr ((hinv r hr).mpr this))
              · intro r hr
                have hcnt := countRef_updateAt chunks i
                  ⟨"", m.picture_ref, "images/" ++ m.slugName ++ ".png"⟩ r hi
                dsimp only at hcnt
                by_cases hrm : r = m.picture_ref
                · subst hrm
                  rw [if_pos rfl] at hcnt
                  omega
                · rw [if_neg (fun h => hrm h.symm)] at hcnt
                  have := hb r hr
                  omega

/-- If every sidecar is skippable in the current state, the fallback loop is
a no-op with zero injections. -/
theorem injectAux_all_skip (metas : List ImageMeta) (chunks : List Chunk)
    (assigned : List String)
    (h : ∀ m ∈ metas, m.picture_ref = "" ∨ m.picture_ref ∈ assigned ∨
        pyStripL m.caption.data ≠ [] ∨ findTargetIdx m.page_number chunks = none) :
    injectAux chunks assigned metas = (chunks, assigned, 0) := by
  induction metas with
  | nil => rfl
  | cons m rest ih =>
      have hm := h m (List.mem_cons_self _ _)
      have hrest : ∀ m' ∈ rest, m'.picture_ref = "" ∨ m'.picture_ref ∈ assigned ∨
          pyStripL m'.caption.data ≠ [] ∨ findTargetIdx m'.page_number chunks = none :=
        fun m' hm' => h m' (List.mem_cons.mpr (Or.inr hm'))
      rw [injectAux]
      rcases hm with hm | hm | hm | hm
      · rw [if_pos (Or.inl hm)]
        exact ih hrest
      · rw [if_pos (Or.inr hm)]
        exact ih hrest
      · by_cases h1 : m.picture_ref = "" ∨ m.picture_ref ∈ assigned
        · rw [if_pos h1]
          exact ih hrest
        · rw [if_neg h1, if_pos hm]
          exact ih hrest
      · by_cases h1 : m.picture_ref = "" ∨ m.picture_ref ∈ assigned
        · rw [if_pos h1]
          exact ih hrest
        · rw [if_neg h1]
          by_cases h2 : pyStripL m.caption.data ≠ []
          · rw [if_pos h2]
            exact ih hrest
          · rw [if_neg h2, hm]
            exact ih hrest

/-- If no sidecar carrying ref `r` has a coverable page, the fallback loop
leaves the count of `r` unchanged. -/
theorem injectAux_count_eq_of_no_target (metas : List ImageMeta) (chunks : List Chunk)
    (assigned : List String) (r : String)
    (h : ∀ m ∈ metas, m.picture_ref = r → findTargetIdx m.page_number chunks = none) :
    countRef r (injectAux chunks assigned metas).1 = countRef r chunks := by
  induction metas generalizing chunks assigned with
  | nil => simp [injectAux]
  | cons m rest ih =>
      have hrest : ∀ m' ∈ rest, m'.picture_ref = r →
          findTargetIdx m'.page_number chunks = none :=
        fun m' hm' => h m' (List.mem_cons.mpr (Or.inr hm'))
      rw [injectAux]
      by_cases h1 : m.picture_ref = "" ∨ m.picture_ref ∈ assigned
      · rw [if_pos h1]
        exact ih chunks assigned hrest
      · rw [if_neg h1]
        by_cases h2 : pyStripL m.caption.data ≠ []
        · rw [if_pos h2]
          exact ih chunks assigned hrest
        · rw [if_neg h2]
          cases ht : findTargetIdx m.page_number chunks with
          | none => exact ih chunks assigned hrest
          | some i =>
              dsimp only
              have hmr : m.picture_ref ≠ r := by
                intro he
                rw [h m (List.mem_cons_self _ _) he] at ht
                exact Option.noConfusion ht
              have hi := findTargetIdx_lt m.page_number chunks i ht
              have hcnt := countRef_updateAt chunks i
                ⟨"", m.picture_ref, "images/" ++ m.slugName ++ ".png"⟩ r hi
              dsimp only at hcnt
              rw [if_neg hmr] at hcnt
              have hpg : (updateAt chunks i (fun c =>
                  { c with figures := c.figures ++
                      [⟨"", m.picture_ref, "images/" ++ m.slugName ++ ".png"⟩] })).map
                    (fun c => c.page_numbers) = chunks.map (fun c => c.page_numbers) :=
                updateAt_pages chunks i _
              have hrest2 : ∀ m' ∈ rest, m'.picture_ref = r →
                  findTargetIdx m'.page_number (updateAt chunks i (fun c =>
                    { c with figures := c.figures ++
                        [⟨"", m.picture_ref, "images/" ++ m.slugName ++ ".png"⟩] })) = none := by
                intro m' hm' he
                rw [findTargetIdx_pages_congr m'.page_number _ chunks hpg]
                exact hrest m' hm' he
              rw [ih _ _ hrest2, hcnt]
              omega

/-- After the fallback loop, every processed sidecar is settled: its ref is
falsy, its caption is truthy, its ref is present in the output chunks, or no
output chunk covers its page. -/
theorem injectAux_settled (metas : List ImageMeta) (chunks : List Chunk)
    (assigned : List String) (hinv : AssignedInv chunks assigned) :
    ∀ m ∈ metas, m.picture_ref = "" ∨ pyStripL m.caption.data ≠ [] ∨
      1 ≤ countRef m.picture_ref (injectAux chunks assigned metas).1 ∨
      findTargetIdx m.page_number (injectAux chunks assigned metas).1 = none := by
  induction metas generalizing chunks assigned with
  | nil => simp
  | cons m rest ih =>
      intro m' hm'
      have hpg : (injectAux chunks assigned (m :: rest)).1.map (fun c => c.page_numbers) =
          chunks.map (fun c => c.page_numbers) := injectAux_pages _ _ _
      rcases List.mem_cons.mp hm' with hm' | hm'
      · subst hm'
        by_cases hr0 : m'.picture_ref = ""
        · exact Or.inl hr0
        · by_cases hcap : pyStripL m'.caption.data ≠ []
          · exact Or.inr (Or.inl hcap)
          · by_cases hass : m'.picture_ref ∈ assigned
            · refine Or.inr (Or.inr (Or.inl ?_))
              have h1 : 1 ≤ countRef m'.picture_ref chunks :=
                (hinv m'.picture_ref hr0).mp hass
              calc 1 ≤ countRef m'.picture_ref chunks := h1
                _ ≤ _ := injectAux_count_mono _ _ _ _
            · cases ht : findTargetIdx m'.page_number chunks with
              | none =>
                  refine Or.inr (Or.inr (Or.inr ?_))
                  rw [findTargetIdx_pages_congr m'.page_number _ chunks hpg]
                  exact ht
              | some i =>
                  refine Or.inr (Or.inr (Or.inl ?_))
                  rw [injectAux, if_neg (fun h => (h.elim hr0 hass)),
                    if_neg hcap, ht]
                  dsimp only
                  have hi := findTargetIdx_lt m'.page_number chunks i ht
                  have hcnt := countRef_updateAt chunks i
                    ⟨"", m'.picture_ref, "images/" ++ m'.slugName ++ ".png"⟩ m'.picture_ref hi
                  dsimp only at hcnt
                  rw [if_pos rfl] at hcnt
                  calc 1 ≤ countRef m'.picture_ref (updateAt chunks i (fun c =>
                        { c with figures := c.figures ++
                            [⟨"", m'.picture_ref, "images/" ++ m'.slugName ++ ".png"⟩] })) := by
                        omega
                    _ ≤ _ := injectAux_count_mono _ _ _ _
      · rw [injectAux]
        by_cases h1 : m.picture_ref = "" ∨ m.picture_ref ∈ assigned
        · rw [if_pos h1]
          exact ih chunks assigned hinv m' hm'
        · rw [if_neg h1]
          by_cases h2 : pyStripL m.caption.data ≠ []
          · rw [if_pos h2]
            exact ih chunks assigned hinv m' hm'
          · rw [if_neg h2]
            cases ht : findTargetIdx m.page_number chunks with
            | none => exact ih chunks assigned hinv m' hm'
            | some i =>
                dsimp only
                have hi := findTargetIdx_lt m.page_number chunks i ht
                have hm0 : m.picture_ref ≠ "" := fun h => h1 (Or.inl h)
                refine ih _ _ ?_ m' hm'
                intro r hr
                have hcnt := countRef_updateAt chunks i
                  ⟨"", m.picture_ref, "images/" ++ m.slugName ++ ".png"⟩ r hi
                dsimp only at hcnt
                by_cases hrm : r = m.picture_ref
                · subst hrm
                  rw [if_pos rfl] at hcnt
                  constructor
                  · intro _
                    omega
                  · intro _
                    exact List.mem_cons_self _ _
                · rw [if_neg (fun h => hrm h.symm)] at hcnt
                  constructor
                  · intro hmem
                    rcases List.mem_cons.mp hmem with hmem | hmem
                    · exact absurd hmem hrm
                    · have := (hinv r hr).mp hmem
                      omega
                  · intro hc
                    have : 1 ≤ countRef r chunks := by omega
                    exact List.mem_cons.mpr (Or.inr ((hinv r hr).mpr this))

/-- Chunk membership through `updateAt`. -/
theorem updateAt_mem (chunks : List Chunk) (i : Nat) (f : Chunk → Chunk) :
    ∀ c' ∈ updateAt chunks i f, c' ∈ chunks ∨ ∃ c ∈ chunks, c' = f c := by
  induction chunks generalizing i with
  | nil => simp [updateAt]
  | cons c rest ih =>
      cases i with
      | zero =>
          intro c' hc'
          rcases List.mem_cons.mp hc' with hc' | hc'
          · exact Or.inr ⟨c, List.mem_cons_self _ _, hc'⟩
          · exact Or.inl (List.mem_cons.mpr (Or.inr hc'))
      | succ n =>
          intro c' hc'
          rcases List.mem_cons.mp hc' with hc' | hc'
          · exact Or.inl (hc' ▸ List.mem_cons_self _ _)
          · rcases ih n c' hc' with h | ⟨c0, hc0, he⟩
            · exact Or.inl (List.mem_cons.mpr (Or.inr h))
            · exact Or.inr ⟨c0, List.mem_cons.mpr (Or.inr hc0), he⟩

/-- A document-wide count of zero means the ref is absent from every chunk. -/
theorem countRef_zero_of_chunk (chunks : List Chunk) (r : String)
    (h : countRef r chunks = 0) : ∀ c ∈ chunks, countFigs r c.figures = 0 := by
  induction chunks with
  | nil => simp
  | cons c rest ih =>
      rw [countRef_cons] at h
      intro c' hc'
      rcases List.mem_cons.mp hc' with hc' | hc'
      · subst hc'
        omega
      · exact ih (by omega) c' hc'

/-- The fallback loop preserves the per-chunk dedup invariant. -/
theorem injectAux_chunkInv (metas : List ImageMeta) (chunks : List Chunk)
    (assigned : List String) (hinv : AssignedInv chunks assigned)
    (hci : ∀ c ∈ chunks, ChunkInv c) :
    ∀ c ∈ (injectAux chunks assigned metas).1, ChunkInv c := by
  induction metas generalizing chunks assigned with
  | nil => simpa [injectAux] using hci
  | cons m rest ih =>
      rw [injectAux]
      by_cases h1 : m.picture_ref = "" ∨ m.picture_ref ∈ assigned
      · rw [if_pos h1]
        exact ih chunks assigned hinv hci
      · rw [if_neg h1]
        by_cases h2 : pyStripL m.caption.data ≠ []
        · rw [if_pos h2]
          exact ih chunks assigned hinv hci
        · rw [if_neg h2]
          cases ht : findTargetIdx m.page_number chunks with
          | none => exact ih chunks assigned hinv hci
          | some i =>
              dsimp only
              have hi := findTargetIdx_lt m.page_number chunks i ht
              have hm0 : m.picture_ref ≠ "" := fun h => h1 (Or.inl h)
              have habs : countRef m.picture_ref chunks = 0 := by
                by_contra hne
                exact h1 (Or.inr ((hinv m.picture_ref hm0).mpr (by omega)))
              have hci2 : ∀ c ∈ updateAt chunks i (fun c =>
                  { c with figures := c.figures ++
                      [⟨"", m.picture_ref, "images/" ++ m.slugName ++ ".png"⟩] }), ChunkInv c := by
                intro c' hc'
                rcases updateAt_mem chunks i _ c' hc' with h | ⟨c0, hc0, he⟩
                · exact hci c' h
                · subst he
                  obtain ⟨hf, htb⟩ := hci c0 hc0
                  refine ⟨?_, htb⟩
                  dsimp only
                  rw [List.map_append]
                  have habs0 := countRef_zero_of_chunk chunks m.picture_ref habs c0 hc0
                  have hnotin : m.picture_ref ∉ c0.figures.map (fun f => f.picture_ref) := by
                    intro hmem
                    rcases List.mem_map.mp hmem with ⟨g, hg, hgr⟩
                    exact ((countFigs_eq_zero_iff _ _).mp habs0 g hg) hgr
                  simp [List.nodup_append, hf, hnotin]
              refine ih _ _ ?_ hci2
              intro r hr
              have hcnt := countRef_updateAt chunks i
                ⟨"", m.picture_ref, "images/" ++ m.slugName ++ ".png"⟩ r hi
              dsimp only at hcnt
              by_cases hrm : r = m.picture_ref
              · subst hrm
                rw [if_pos rfl] at hcnt
                constructor
                · intro _
                  omega
                · intro _
                  exact List.mem_cons_self _ _
              · rw [if_neg (fun h => hrm h.symm)] at hcnt
                constructor
                · intro hmem
                  rcases List.mem_cons.mp hmem with hmem | hmem
                  · exact absurd hmem hrm
                  · have := (hinv r hr).mp hmem
                    omega
                · intro hc
                  have : 1 ≤ countRef r chunks := by omega
                  exact List.mem_cons.mpr (Or.inr ((hinv r hr).mpr this))

/-- The figure references collected by `build_chunks` within one chunk avoid
the seen set and are pairwise distinct. -/
theorem buildRefs_nodup (capmap tslugs : List (String × String)) :
    ∀ (items : List DocItem) (seenP seenT : List String),
      ((buildRefs capmap tslugs seenP seenT items).1.map (fun f => f.picture_ref)).Nodup ∧
        ∀ f ∈ (buildRefs capmap tslugs seenP seenT items).1, f.picture_ref ∉ seenP := by
  intro items
  induction items with
  | nil => intro seenP seenT; simp [buildRefs]
  | cons it rest ih =>
      intro seenP seenT
      cases it with
      | pic ref cap pages =>
          by_cases hk : ref ∈ seenP
          · simp only [buildRefs, if_pos hk]
            exact ih seenP seenT
          · simp only [buildRefs, if_neg hk]
            obtain ⟨hnd, havoid⟩ := ih (ref :: seenP) seenT
            refine ⟨?_, ?_⟩
            · simp only [List.map_cons, List.nodup_cons]
              refine ⟨?_, hnd⟩
              intro hmem
              rcases List.mem_map.mp hmem with ⟨g, hg, hgr⟩
              exact havoid g hg (hgr ▸ List.mem_cons_self _ _)
            · intro g hg
              rcases List.mem_cons.mp hg with hg | hg
              · exact hg ▸ hk
              · intro hmem
                exact havoid g hg (List.mem_cons.mpr (Or.inr hmem))
      | table ref cap pages =>
          by_cases hk : ref ∈ seenT
          · simp only [buildRefs, if_pos hk]
            exact ih seenP seenT
          · simp only [buildRefs, if_neg hk]
            exact ih seenP (ref :: seenT)
      | other tn lbl txt pages =>
          by_cases hc : containsSub "caption".data (toLowerL lbl.data)
          · simp only [buildRefs, if_pos hc]
            cases hlook : dictGet? capmap txt with
            | none => exact ih seenP seenT
            | some pref =>
                dsimp only
                by_cases hp : pref ≠ "" ∧ pref ∉ seenP
                · rw [if_pos hp]
                  obtain ⟨hnd, havoid⟩ := ih (pref :: seenP) seenT
                  dsimp only
                  refine ⟨?_, ?_⟩
                  · simp only [List.map_cons, List.nodup_cons]
                    refine ⟨?_, hnd⟩
                    intro hmem
                    rcases List.mem_map.mp hmem with ⟨g, hg, hgr⟩
                    exact havoid g hg (hgr ▸ List.mem_cons_self _ _)
                  · intro g hg
                    rcases List.mem_cons.mp hg with hg | hg
                    · exact hg ▸ hp.2
                    · intro hmem
                      exact havoid g hg (List.mem_cons.mpr (Or.inr hmem))
                · rw [if_neg hp]
                  exact ih seenP seenT
          · simp only [buildRefs, if_neg hc]
            exact ih seenP seenT

/-- `dedup_cross_chunk` leaves at most one occurrence of each truthy ref. -/
theorem dedup_cross_chunk_count_le (chunks : List Chunk) (r : String) (hr : r ≠ "") :
    countRef r (dedup_cross_chunk chunks).1 ≤ 1 := by
  simpa using crossChunks_count_le chunks [] r hr

/-- `dedup_cross_chunk` keeps at least one occurrence of a present truthy ref. -/
theorem dedup_cross_chunk_present (chunks : List Chunk) (r : String) (hr : r ≠ "")
    (h : 1 ≤ countRef r chunks) : 1 ≤ countRef r (dedup_cross_chunk chunks).1 :=
  crossChunks_present chunks [] r hr (by simp) h

/-- `dedup_cross_chunk` never grows a count. -/
theorem dedup_cross_chunk_count_mono (chunks : List Chunk) (r : String) :
    countRef r (dedup_cross_chunk chunks).1 ≤ countRef r chunks :=
  crossChunks_count_mono chunks [] r

/-- `dedup_cross_chunk` leaves page numbers unchanged. -/
theorem dedup_cross_chunk_pages (chunks : List Chunk) :
    (dedup_cross_chunk chunks).1.map (fun c => c.page_numbers) =
      chunks.map (fun c => c.page_numbers) :=
  crossChunks_pages chunks []

/-- Unfolding of `inject_fallback_figures` to its loop. -/
theorem inject_fallback_fst (metas : List ImageMeta) (chunks : List Chunk) :
    (inject_fallback_figures metas chunks).1 =
      (injectAux chunks (assignedRefs chunks) metas).1 := rfl

/-- Unfolding of `inject_fallback_figures`'s injection count. -/
theorem inject_fallback_snd (metas : List ImageMeta) (chunks : List Chunk) :
    (inject_fallback_figures metas chunks).2 =
      (injectAux chunks (assignedRefs chunks) metas).2.2 := rfl

/-- The chunk output of `postprocess_chunks` in terms of its passes. -/
theorem postprocess_fst (fuzz : Option (String → String → ℚ)) (threshold : ℚ)
    (pictures : List Pic) (metas : List ImageMeta) (chunks : List Chunk) :
    (postprocess_chunks fuzz threshold pictures metas chunks).1 =
      (if (inject_fallback_figures metas (dedup_cross_chunk (dedup_per_chunk
            (resolve_image_files metas
              (fix_figure_refs fuzz threshold pictures chunks).1).1)).1).2 ≠ 0
       then (dedup_cross_chunk (inject_fallback_figures metas (dedup_cross_chunk
              (dedup_per_chunk (resolve_image_files metas
                (fix_figure_refs fuzz threshold pictures chunks).1).1)).1).1).1
       else (inject_fallback_figures metas (dedup_cross_chunk (dedup_per_chunk
              (resolve_image_files metas
                (fix_figure_refs fuzz threshold pictures chunks).1).1)).1).1) := by
  rw [postprocess_chunks]
  by_cases h : (inject_fallback_figures metas (dedup_cross_chunk (dedup_per_chunk
      (resolve_image_files metas
        (fix_figure_refs fuzz threshold pictures chunks).1).1)).1).2 ≠ 0
  · rw [if_pos h, if_pos h]
  · rw [if_neg h, if_neg h]

/-- The fallback-injection count reported by `postprocess_chunks`. -/
theorem postprocess_fallback (fuzz : Option (String → String → ℚ)) (threshold : ℚ)
    (pictures : List Pic) (metas : List ImageMeta) (chunks : List Chunk) :
    (postprocess_chunks fuzz threshold pictures metas chunks).2.fallback_injected =
      (inject_fallback_figures metas (dedup_cross_chunk (dedup_per_chunk
        (resolve_image_files metas
          (fix_figure_refs fuzz threshold pictures chunks).1).1)).1).2 := rfl

/-- **C6.** After `postprocess_chunks` completes, every non-empty image
reference identifier assigned a figure entry anywhere in the document appears
in exactly one chunk (its total entry count is at most 1); and an image whose
ref is absent after the cross-chunk dedup pass and whose page is covered by
no chunk at that point (an unassignable image) appears in zero chunks of the
final output. -/
theorem claim_C6_cross_chunk_dedup (fuzz : Option (String → String → ℚ)) (threshold : ℚ)
    (pictures : List Pic) (metas : List ImageMeta) (chunks : List Chunk) :
    (∀ r, r ≠ "" →
       countRef r (postprocess_chunks fuzz threshold pictures metas chunks).1 ≤ 1) ∧
    (∀ r, r ≠ "" →
       countRef r (dedup_cross_chunk (dedup_per_chunk (resolve_image_files metas
         (fix_figure_refs fuzz threshold pictures chunks).1).1)).1 = 0 →
       (∀ m ∈ metas, m.picture_ref = r →
          findTargetIdx m.page_number (dedup_cross_chunk (dedup_per_chunk
            (resolve_image_files metas
              (fix_figure_refs fuzz threshold pictures chunks).1).1)).1 = none) →
       countRef r (postprocess_chunks fuzz threshold pictures metas chunks).1 = 0) := by
  constructor
  · intro r hr
    rw [postprocess_fst]
    split
    · exact dedup_cross_chunk_count_le _ r hr
    · rw [inject_fallback_fst]
      refine injectAux_bound metas _ _ ?_ ?_ r hr
      · intro r' hr'
        exact assignedRefs_iff _ r' hr'
      · intro r' hr'
        exact dedup_cross_chunk_count_le _ r' hr'
  · intro r hr h0 hnone
    rw [postprocess_fst]
    have h5 : countRef r (inject_fallback_figures metas (dedup_cross_chunk
        (dedup_per_chunk (resolve_image_files metas
          (fix_figure_refs fuzz threshold pictures chunks).1).1)).1).1 = 0 := by
      rw [inject_fallback_fst, injectAux_count_eq_of_no_target _ _ _ r hnone]
      exact h0
    split
    · have := dedup_cross_chunk_count_mono (inject_fallback_figures metas
        (dedup_cross_chunk (dedup_per_chunk (resolve_image_files metas
          (fix_figure_refs fuzz threshold pictures chunks).1).1)).1).1 r
      omega
    · exact h5

/-- Witness for C6 at a concrete input: an empty chunk list with one
uncaptioned sidecar whose page no chunk covers; its ref ends up in zero
chunks, and any truthy ref occurs at most once. -/
theorem claim_C6_witness :
    countRef "#/pictures/9"
      (postprocess_chunks none 85 [] [⟨"figure_1", "", some 5, "#/pictures/9"⟩] []).1 = 0 ∧
    countRef "#/pictures/1"
      (postprocess_chunks none 85 [] [⟨"figure_1", "", some 5, "#/pictures/9"⟩] []).1 ≤ 1 :=
  ⟨(claim_C6_cross_chunk_dedup none 85 [] [⟨"figure_1", "", some 5, "#/pictures/9"⟩] []).2
      "#/pictures/9" (by decide) (by decide) (by decide),
   (claim_C6_cross_chunk_dedup none 85 [] [⟨"figure_1", "", some 5, "#/pictures/9"⟩] []).1
      "#/pictures/1" (by decide)⟩

/-- **C7 counterexample.** Right after chunk construction the intra-chunk
invariant can already fail for tables: two distinct tables with the same
caption receive the same CSV slug, and `build_chunks` dedups table entries by
`self_ref`, not by file path, so one chunk holds two table entries sharing a
file path. -/
theorem claim_C7_counterexample :
    ∃ c ∈ build_chunks []
        (extractTableSlugs [⟨"#/tables/0", "Meas"⟩, ⟨"#/tables/1", "Meas"⟩])
        [⟨"some text", [], [DocItem.table "#/tables/0" "Meas" [1],
            DocItem.table "#/tables/1" "Meas" [1]]⟩],
      ¬ (c.tables.map (fun t => t.csv_file)).Nodup := by
  decide

/-- **C7 (amended).** Within every chunk, figure entries never share an image
reference identifier after chunk construction, and the full invariant (no two
figure entries share a ref AND no two table entries share a file path) holds
after the intra-chunk dedup pass and is preserved by the cross-chunk dedup
and fallback-injection passes; dedup keeps a subsequence (first-occurrence
order) and represents every input key.  After construction alone, however,
two table entries may share a file path when two distinct tables carry the
same caption slug (`claim_C7_counterexample`). -/
theorem claim_C7_intra_chunk_dedup :
    (∀ (pictures : List Pic) (tslugs : List (String × String)) (srcs : List ChunkSrc),
       ∀ c ∈ build_chunks pictures tslugs srcs,
         (c.figures.map (fun f => f.picture_ref)).Nodup) ∧
    (∀ chunks : List Chunk, ∀ c ∈ dedup_per_chunk chunks, ChunkInv c) ∧
    (∀ chunks : List Chunk, (∀ c ∈ chunks, ChunkInv c) →
       ∀ c ∈ (dedup_cross_chunk chunks).1, ChunkInv c) ∧
    (∀ (metas : List ImageMeta) (chunks : List Chunk), (∀ c ∈ chunks, ChunkInv c) →
       ∀ c ∈ (inject_fallback_figures metas chunks).1, ChunkInv c) ∧
    (∀ (seen : List String) (fs : List Fig), List.Sublist (dedupFigs seen fs) fs) ∧
    (∀ (seen : List String) (ts : List Tbl), List.Sublist (dedupTbls seen ts) ts) ∧
    (∀ (seen : List String) (fs : List Fig), ∀ f ∈ fs,
       f.picture_ref ∈ seen ∨ ∃ g ∈ dedupFigs seen fs, g.picture_ref = f.picture_ref) := by
  refine ⟨?_, ?_, ?_, ?_, dedupFigs_sublist, dedupTbls_sublist, dedupFigs_mem_key⟩
  · intro pictures tslugs srcs c hc
    rcases List.mem_map.mp hc with ⟨src, _, he⟩
    subst he
    exact (buildRefs_nodup _ _ src.doc_items [] []).1
  · intro chunks c hc
    rcases List.mem_map.mp hc with ⟨c0, _, he⟩
    subst he
    exact ⟨(dedupFigs_nodup [] c0.figures).1, (dedupTbls_nodup [] c0.tables).1⟩
  · intro chunks h c hc
    obtain ⟨c0, hc0, hsub, htab⟩ := crossChunks_shape chunks [] c hc
    obtain ⟨hf, ht⟩ := h c0 hc0
    exact ⟨List.Nodup.sublist (List.Sublist.map _ hsub) hf, htab ▸ ht⟩
  · intro metas chunks h c hc
    rw [inject_fallback_fst] at hc
    exact injectAux_chunkInv metas chunks (assignedRefs chunks)
      (fun r hr => assignedRefs_iff chunks r hr) h c hc

/-- Witness for C7 at a concrete input: the invariant-preservation parts
applied to a one-chunk document. -/
theorem claim_C7_witness :
    (∀ c ∈ (dedup_cross_chunk [⟨"t", [], [], [1],
        [⟨"capA", "#/pictures/0", ""⟩], [⟨"tc", "tables/t.csv"⟩]⟩]).1, ChunkInv c) ∧
    (∀ c ∈ (inject_fallback_figures [⟨"fig_1", "", some 1, "#/pictures/7"⟩]
        [⟨"t", [], [], [1],
          [⟨"capA", "#/pictures/0", ""⟩], [⟨"tc", "tables/t.csv"⟩]⟩]).1, ChunkInv c) :=
  ⟨claim_C7_intra_chunk_dedup.2.2.1 _
      (by
        intro c hc
        rcases List.mem_singleton.mp hc with rfl
        exact ⟨by decide, by decide⟩),
   claim_C7_intra_chunk_dedup.2.2.2.1 _ _
      (by
        intro c hc
        rcases List.mem_singleton.mp hc with rfl
        exact ⟨by decide, by decide⟩)⟩

/-- Presence of a truthy ref after pass 5 survives the conditional final
dedup of `postprocess_chunks`. -/
theorem postprocess_present (fuzz : Option (String → String → ℚ)) (threshold : ℚ)
    (pictures : List Pic) (metas : List ImageMeta) (chunks : List Chunk) (r : String)
    (hr : r ≠ "")
    (h : 1 ≤ countRef r (inject_fallback_figures metas (dedup_cross_chunk
        (dedup_per_chunk (resolve_image_files metas
          (fix_figure_refs fuzz threshold pictures chunks).1).1)).1).1) :
    1 ≤ countRef r (postprocess_chunks fuzz threshold pictures metas chunks).1 := by
  rw [postprocess_fst]
  split
  · exact dedup_cross_chunk_present _ r hr h
  · exact h

/-- `postprocess_chunks` leaves every chunk's page numbers unchanged. -/
theorem postprocess_pages (fuzz : Option (String → String → ℚ)) (threshold : ℚ)
    (pictures : List Pic) (metas : List ImageMeta) (chunks : List Chunk) :
    (postprocess_chunks fuzz threshold pictures metas chunks).1.map
        (fun c => c.page_numbers) =
      chunks.map (fun c => c.page_numbers) := by
  rw [postprocess_fst]
  split
  · rw [dedup_cross_chunk_pages, inject_fallback_fst, injectAux_pages,
      dedup_cross_chunk_pages, dedup_per_chunk_pages, resolve_image_files_pages,
      fix_figure_refs_pages]
  · rw [inject_fallback_fst, injectAux_pages, dedup_cross_chunk_pages,
      dedup_per_chunk_pages, resolve_image_files_pages, fix_figure_refs_pages]

/-- Presence of a truthy ref survives passes 1-4 of `postprocess_chunks`. -/
theorem passes14_present (fuzz : Option (String → String → ℚ)) (threshold : ℚ)
    (pictures : List Pic) (metas : List ImageMeta) (X : List Chunk) (r : String)
    (hr : r ≠ "") (h : 1 ≤ countRef r X) :
    1 ≤ countRef r (dedup_cross_chunk (dedup_per_chunk (resolve_image_files metas
        (fix_figure_refs fuzz threshold pictures X).1).1)).1 := by
  apply dedup_cross_chunk_present _ r hr
  apply dedup_per_chunk_present
  rw [resolve_image_files_count]
  exact le_trans h (fix_figure_refs_count_mono fuzz threshold pictures X r)

/-- Passes 1-4 of `postprocess_chunks` leave page numbers unchanged. -/
theorem passes14_pages (fuzz : Option (String → String → ℚ)) (threshold : ℚ)
    (pictures : List Pic) (metas : List ImageMeta) (X : List Chunk) :
    (dedup_cross_chunk (dedup_per_chunk (resolve_image_files metas
        (fix_figure_refs fuzz threshold pictures X).1).1)).1.map
      (fun c => c.page_numbers) = X.map (fun c => c.page_numbers) := by
  rw [dedup_cross_chunk_pages, dedup_per_chunk_pages, resolve_image_files_pages,
    fix_figure_refs_pages]

/-- **C1 (amended).** Running `postprocess_chunks` a second time on the chunk
set produced by a first complete run yields zero fallback injections: every
sidecar either became referenced during the first run (and stays referenced
through the second run's earlier passes) or was unassignable (and the chunks'
page sets never change).  The fuzzy-injection and cross-chunk-removal counts
of the second run can be non-zero (`claim_C1_counterexample`), so the
five-pass pipeline as a whole is not idempotent. -/
theorem claim_C1_second_run_fallback (fuzz : Option (String → String → ℚ)) (threshold : ℚ)
    (pictures : List Pic) (metas : List ImageMeta) (chunks : List Chunk) :
    (postprocess_chunks fuzz threshold pictures metas
        (postprocess_chunks fuzz threshold pictures metas chunks).1).2.fallback_injected = 0 := by
  rw [postprocess_fallback, inject_fallback_snd]
  have hinv1 : AssignedInv (dedup_cross_chunk (dedup_per_chunk (resolve_image_files metas
      (fix_figure_refs fuzz threshold pictures chunks).1).1)).1
      (assignedRefs (dedup_cross_chunk (dedup_per_chunk (resolve_image_files metas
        (fix_figure_refs fuzz threshold pictures chunks).1).1)).1) :=
    fun r hr => assignedRefs_iff _ r hr
  have hset := injectAux_settled metas _ _ hinv1
  have hpages2 : (dedup_cross_chunk (dedup_per_chunk (resolve_image_files metas
      (fix_figure_refs fuzz threshold pictures
        (postprocess_chunks fuzz threshold pictures metas chunks).1).1).1)).1.map
        (fun c => c.page_numbers) =
      (injectAux (dedup_cross_chunk (dedup_per_chunk (resolve_image_files metas
          (fix_figure_refs fuzz threshold pictures chunks).1).1)).1
        (assignedRefs (dedup_cross_chunk (dedup_per_chunk (resolve_image_files metas
          (fix_figure_refs fuzz threshold pictures chunks).1).1)).1) metas).1.map
        (fun c => c.page_numbers) := by
    rw [passes14_pages, postprocess_pages, injectAux_pages, passes14_pages]
  have hskip : ∀ m ∈ metas, m.picture_ref = "" ∨
      m.picture_ref ∈ assignedRefs (dedup_cross_chunk (dedup_per_chunk
        (resolve_image_files metas (fix_figure_refs fuzz threshold pictures
          (postprocess_chunks fuzz threshold pictures metas chunks).1).1).1)).1 ∨
      pyStripL m.caption.data ≠ [] ∨
      findTargetIdx m.page_number (dedup_cross_chunk (dedup_per_chunk
        (resolve_image_files metas (fix_figure_refs fuzz threshold pictures
          (postprocess_chunks fuzz threshold pictures metas chunks).1).1).1)).1 = none := by
    intro m hm
    by_cases hr0 : m.picture_ref = ""
    · exact Or.inl hr0
    rcases hset m hm with h | h | h | h
    · exact Or.inl h
    · exact Or.inr (Or.inr (Or.inl h))
    · refine Or.inr (Or.inl ?_)
      refine (assignedRefs_iff _ _ hr0).mpr ?_
      refine passes14_present fuzz threshold pictures metas _ _ hr0 ?_
      refine postprocess_present fuzz threshold pictures metas chunks _ hr0 ?_
      rw [inject_fallback_fst]
      exact h
    · refine Or.inr (Or.inr (Or.inr ?_))
      rw [findTargetIdx_pages_congr m.page_number _ _ hpages2]
      exact h
  rw [injectAux_all_skip _ _ _ hskip]

/-- **C1 counterexample.** One captioned picture whose caption fuzzy-matches
two chunks (the scorer models `rapidfuzz.partial_ratio`, which returns 100
when the caption is a substring of the chunk text): the first run injects the
figure into both chunks and cross-chunk dedup removes the second copy; the
second run re-injects it into the second chunk and removes it again, so the
second run reports one fuzzy injection and one cross-chunk removal — not
zero. -/
theorem claim_C1_counterexample :
    (postprocess_chunks
        (some (fun cap text => if containsSub cap.data text.data then (100 : ℚ) else 0)) 85
        [⟨"#/pictures/0", "FigCap"⟩] []
        (postprocess_chunks
          (some (fun cap text => if containsSub cap.data text.data then (100 : ℚ) else 0)) 85
          [⟨"#/pictures/0", "FigCap"⟩] []
          [⟨"xx FigCap yy", [], [], [1], [], []⟩,
           ⟨"zz FigCap ww", [], [], [2], [], []⟩]).1).2.fuzzy_injected = 1 ∧
    (postprocess_chunks
        (some (fun cap text => if containsSub cap.data text.data then (100 : ℚ) else 0)) 85
        [⟨"#/pictures/0", "FigCap"⟩] []
        (postprocess_chunks
          (some (fun cap text => if containsSub cap.data text.data then (100 : ℚ) else 0)) 85
          [⟨"#/pictures/0", "FigCap"⟩] []
          [⟨"xx FigCap yy", [], [], [1], [], []⟩,
           ⟨"zz FigCap ww", [], [], [2], [], []⟩]).1).2.cross_chunk_removed = 1 := by
  constructor
  · decide
  · decide
